import Mathlib

/-!
Verification development for the Job Hierarchy Engine of the `ajtbd`
repository.

Text is modelled as `List Char`; the JavaScript string operations used by
the source (`trim`, `toLowerCase`, `toUpperCase`, anchored regex
substitution `^lit\s+`, `startsWith`, `slice`, `charAt`) are embedded as
character-wise functions.  Database rows (`jobs`, `solutions`, `edges`,
`graphs`) are lists of records, and each repository / tool operation from
`apps/api/src` is translated to a pure function on those lists.
-/

namespace AJTBD

/-- Whitespace test matching JavaScript `\s` / `trim` on the ASCII range
(space, tab, line feed, carriage return, vertical tab, form feed). -/
def isWs (c : Char) : Bool :=
  c == ' ' || c == '\t' || c == '\n' || c == '\r' || c == '\x0b' || c == '\x0c'

/-- Character-wise model of JavaScript `toLowerCase` for the characters the
engine handles: ASCII letters and the Russian (Cyrillic) letters used by the
language profiles. -/
def jsToLower (c : Char) : Char :=
  if 'A' ≤ c && c ≤ 'Z' then Char.ofNat (c.toNat + 32)
  else if 0x410 ≤ c.toNat && c.toNat ≤ 0x42F then Char.ofNat (c.toNat + 32)
  else if c.toNat == 0x401 then Char.ofNat 0x451
  else c

/-- Character-wise model of JavaScript `toUpperCase` (ASCII + Cyrillic). -/
def jsToUpper (c : Char) : Char :=
  if 'a' ≤ c && c ≤ 'z' then Char.ofNat (c.toNat - 32)
  else if 0x430 ≤ c.toNat && c.toNat ≤ 0x44F then Char.ofNat (c.toNat - 32)
  else if c.toNat == 0x451 then Char.ofNat 0x401
  else c

/-- JavaScript `String.prototype.trim`: drop leading and trailing whitespace. -/
def jsTrim (s : List Char) : List Char :=
  ((s.dropWhile isWs).reverse.dropWhile isWs).reverse

/-- Case-insensitive anchored literal match: `matchCI lit s = some rest` iff
`s` starts (after `toLowerCase`) with the lowercase literal `lit`, and `rest`
is what follows. -/
def matchCI : List Char → List Char → Option (List Char)
  | [], s => some s
  | _ :: _, [] => none
  | l :: ls, c :: cs => if jsToLower c = l then matchCI ls cs else none

/-- Model of testing the anchored regex `^lit\s+` (case-insensitive) against
`s`; on success returns what follows the greedily matched whitespace run. -/
def tryPattern (lit : List Char) (s : List Char) : Option (List Char) :=
  match matchCI lit s with
  | none => none
  | some rest =>
    match rest with
    | [] => none
    | c :: _ => if isWs c then some (rest.dropWhile isWs) else none

/-- One `result.replace(/^lit\s+/i, repl)` step of `normalizeFormulation`. -/
def applySub (lit repl s : List Char) : List Char :=
  match tryPattern lit s with
  | some rest => repl ++ rest
  | none => s

/-- The `for (const [pattern, replacement] of patterns)` loop: apply every
substitution in order, each to the previous result. -/
def applySubs (pats : List (List Char × List Char)) (s : List Char) : List Char :=
  pats.foldl (fun acc p => applySub p.1 p.2 acc) s

/-- `lower.startsWith(p)` where `lower` is the `toLowerCase` of `s` and `p`
is an (already lowercase) literal. -/
def startsWithCI : List Char → List Char → Bool
  | [], _ => true
  | _ :: _, [] => false
  | p :: ps, c :: cs => jsToLower c == p && startsWithCI ps cs

/-- Plain (case-sensitive) `s.startsWith(p)`. -/
def startsWithL : List Char → List Char → Bool
  | [], _ => true
  | _ :: _, [] => false
  | p :: ps, c :: cs => c == p && startsWithL ps cs

/-- Substring test, modelling a regex test for a literal needle. -/
def containsSub (needle : List Char) : List Char → Bool
  | [] => startsWithL needle []
  | c :: rest => startsWithL needle (c :: rest) || containsSub needle rest

-- `src/apps/api/src/domain/normalization.ts`

/-- `CANONICAL_PREFIX_RU = "Я хочу"`. -/
def CANONICAL_RU : List Char := "Я хочу".data

/-- `CANONICAL_PREFIX_EN = "I want to"`. -/
def CANONICAL_EN : List Char := "I want to".data

/-- `FORMULATION_NORMALIZE_RU`: the ordered Russian rewrite patterns. -/
def FORMULATION_NORMALIZE_RU : List (List Char × List Char) :=
  [("я хотел бы".data, "Я хочу ".data),
   ("мне нужно".data, "Я хочу ".data),
   ("мне необходимо".data, "Я хочу ".data),
   ("хочу".data, "Я хочу ".data),
   ("нужно".data, "Я хочу ".data)]

/-- `FORMULATION_NORMALIZE_EN`: the ordered English rewrite patterns
(the third literal is `i'd like to`). -/
def FORMULATION_NORMALIZE_EN : List (List Char × List Char) :=
  [("i need to".data, "I want to ".data),
   ("i would like to".data, "I want to ".data),
   (['i', Char.ofNat 39, 'd', ' ', 'l', 'i', 'k', 'e', ' ', 't', 'o'], "I want to ".data),
   ("want to".data, "I want to ".data),
   ("need to".data, "I want to ".data)]

/-- `normalizeFormulation(formulation, language)` from
`src/apps/api/src/domain/normalization.ts`: trim, apply the language's
rewrite patterns in order, then either fix the casing of the canonical
lead-in or prepend it (with a separating space). -/
def normalizeFormulation (formulation : List Char) (language : String) : List Char :=
  let result := jsTrim formulation
  let pats := if language == "ru" then FORMULATION_NORMALIZE_RU else FORMULATION_NORMALIZE_EN
  let canonicalPfx := if language == "ru" then CANONICAL_RU else CANONICAL_EN
  let result := applySubs pats result
  if startsWithCI (canonicalPfx.map jsToLower) result then
    canonicalPfx ++ result.drop canonicalPfx.length
  else
    canonicalPfx ++ ' ' :: result

/-- The per-language strip lists used by `extractLabel` / `normalizeLabel`. -/
def stripPrefixes (language : String) : List (List Char) :=
  if language == "ru" then
    ["я хочу ".data, "я хотел бы ".data, "мне нужно ".data]
  else
    ["i want to ".data, "i need to ".data, "i would like to ".data]

/-- The prefix-stripping loop of `extractLabel` (it `break`s after the first
matching prefix). -/
def stripFirst : List (List Char) → List Char → List Char
  | [], s => s
  | p :: ps, s => if startsWithCI p s then s.drop p.length else stripFirst ps s

/-- The prefix-stripping loop of `normalizeLabel` (no `break`: every
matching prefix in the list is stripped in turn). -/
def stripAll (ps : List (List Char)) (s : List Char) : List Char :=
  ps.foldl (fun acc p => if startsWithCI p acc then acc.drop p.length else acc) s

/-- `label.charAt(0).toUpperCase() + label.slice(1)`. -/
def capitalizeFirst : List Char → List Char
  | [] => []
  | c :: cs => jsToUpper c :: cs

/-- `result.replace(/\.$/, "")`: drop one trailing period. -/
def dropTrailingPeriod (s : List Char) : List Char :=
  match s.reverse with
  | '.' :: rest => rest.reverse
  | _ => s

/-- `extractLabel(formulation, language)`. -/
def extractLabel (formulation : List Char) (language : String) : List Char :=
  let normalized := normalizeFormulation formulation language
  capitalizeFirst (stripFirst (stripPrefixes language) normalized)

/-- `normalizeLabel(label, language)`. -/
def normalizeLabel (label : List Char) (language : String) : List Char :=
  dropTrailingPeriod (capitalizeFirst (stripAll (stripPrefixes language) (jsTrim label)))

-- Data model (`src/apps/api/src/domain/schemas.ts`, `db/index.ts` schema)

/-- `level` enum: `big | core | small | micro`. -/
inductive JobLevel
  | big | core | small | micro
deriving DecidableEq, Repr

/-- `phase` enum: `before | during | after | unknown`. -/
inductive Phase
  | before | during | after | unknown
deriving DecidableEq, Repr

/-- `cadence` enum: `once | repeat`. -/
inductive Cadence
  | once | recurring
deriving DecidableEq, Repr

/-- A row of the `jobs` table (fields not used by any claim are omitted;
`scoresJson` keeps only its null/non-null status, which is all the engine
inspects). -/
structure Job where
  id : String
  graphId : String
  level : JobLevel
  parentId : Option String
  formulation : List Char
  label : List Char
  phase : Phase
  cadence : Cadence
  scoresJson : Bool
  sortOrder : Nat
deriving DecidableEq, Repr

/-- A row of the `solutions` table (the claim-relevant columns). -/
structure Solution where
  id : String
  jobId : String
deriving DecidableEq, Repr

/-- A row of the `edges` table (the claim-relevant columns). -/
structure Edge where
  id : String
  graphId : String
  fromId : String
  toId : String
deriving DecidableEq, Repr

/-- A row of the `graphs` table (the claim-relevant columns of its
`input_json` inlined). -/
structure GraphRec where
  id : String
  language : String
  segment : String
  coreJob : String
  bigJob : Option String
deriving DecidableEq, Repr

/-- The job/solution/edge tables of the SQLite database. -/
structure DBState where
  jobs : List Job
  solutions : List Solution
  edges : List Edge
deriving DecidableEq, Repr

-- Repository layer (`src/apps/api/src/db/repo.ts`, `db/repos/job.repo.ts`)

/-- `findById`: `SELECT * FROM jobs WHERE id = ?` (first matching row). -/
def findById (jobs : List Job) (id : String) : Option Job :=
  jobs.find? (fun j => j.id == id)

/-- Stable insertion of a job into a list sorted by `sortOrder` ascending. -/
def insertSorted (j : Job) : List Job → List Job
  | [] => [j]
  | x :: xs => if j.sortOrder < x.sortOrder then j :: x :: xs else x :: insertSorted j xs

/-- `ORDER BY sort_order ASC` (stable with respect to the stored row order,
like SQLite's scan order for equal keys). -/
def sortByOrder (l : List Job) : List Job :=
  l.foldl (fun acc j => insertSorted j acc) []

/-- `findByParentId(parentId)`: direct children ordered by `sortOrder`. -/
def findByParentId (jobs : List Job) (parentId : String) : List Job :=
  sortByOrder (jobs.filter (fun j => j.parentId == some parentId))

/-- `findRootJobs(graphId)`: jobs of the graph with `parent_id IS NULL`,
ordered by `sortOrder`. -/
def findRootJobs (jobs : List Job) (graphId : String) : List Job :=
  sortByOrder (jobs.filter (fun j => j.graphId == graphId && j.parentId == none))

/-- `findByGraphId(graphId)`: every job of a graph, ordered by `sortOrder`. -/
def findByGraphIdList (jobs : List Job) (graphId : String) : List Job :=
  sortByOrder (jobs.filter (fun j => j.graphId == graphId))

/-- `countChildren(parentId)`: `COUNT(*) WHERE parent_id = ?`. -/
def countChildren (jobs : List Job) (parentId : String) : Nat :=
  (jobs.filter (fun j => j.parentId == some parentId)).length

/-- `countByJobId(jobId)` of `solution.repo.ts`. -/
def countByJobId (solutions : List Solution) (jobId : String) : Nat :=
  (solutions.filter (fun s => s.jobId == jobId)).length

/-- The `Omit<Job, "id" | timestamps | "sortOrder">` payload accepted by
`JobRepo.insertAfter`. -/
structure NewJobPayload where
  graphId : String
  level : JobLevel
  parentId : Option String
  formulation : List Char
  label : List Char
  phase : Phase
  cadence : Cadence
  scoresJson : Bool
deriving DecidableEq, Repr

/-- The sibling-shift `UPDATE` of `JobRepo.insertAfter`: jobs in the
anchor's `(graph_id, parent_id)` scope with a strictly greater `sort_order`
are shifted up by one; all other rows are untouched. -/
def shiftSibling (a : Job) (j : Job) : Job :=
  if j.graphId == a.graphId && j.parentId == a.parentId && a.sortOrder < j.sortOrder then
    { j with sortOrder := j.sortOrder + 1 }
  else j

/-- `JobRepo.insertAfter(afterJobId, newJob)`: locate the anchor, shift the
later siblings, insert the new row with `sortOrder = anchor.sortOrder + 1`.
`newId` stands for the fresh `crypto.randomUUID()`.  Returns `none` when the
anchor does not exist (the thrown `Job not found`). -/
def insertAfter (jobs : List Job) (afterJobId : String) (newJob : NewJobPayload)
    (newId : String) : Option (List Job × Job) :=
  match findById jobs afterJobId with
  | none => none
  | some afterJob =>
    let created : Job :=
      { id := newId, graphId := newJob.graphId, level := newJob.level,
        parentId := newJob.parentId, formulation := newJob.formulation,
        label := newJob.label, phase := newJob.phase, cadence := newJob.cadence,
        scoresJson := newJob.scoresJson, sortOrder := afterJob.sortOrder + 1 }
    some (jobs.map (shiftSibling afterJob) ++ [created], created)

/-- The body of `jobIds.forEach((id, index) => UPDATE ... SET sort_order =
index ... WHERE id = id)` in `JobRepo.reorder`, starting at index `k`. -/
def reorderFrom : List Job → List String → Nat → List Job
  | jobs, [], _ => jobs
  | jobs, id :: rest, k =>
    reorderFrom (jobs.map (fun j => if j.id == id then { j with sortOrder := k } else j))
      rest (k + 1)

/-- `JobRepo.reorder(jobIds)`. -/
def reorder (jobs : List Job) (jobIds : List String) : List Job :=
  reorderFrom jobs jobIds 0

-- AI tools (`src/apps/api/src/ai/tools/job-manipulation.ts`)

/-- Outcome of a tool call: the `success` flag of the returned object
together with the resulting `jobs` table (unchanged on failure, since a
failing tool returns before issuing any write). -/
structure ToolOutcome where
  success : Bool
  jobs : List Job
deriving DecidableEq, Repr

/-- The optional fields of the `job_insert_after` tool's `job` parameter
that feed the inserted row. -/
structure InsertToolArgs where
  formulation : List Char
  label : List Char
  phase : Option Phase
  cadence : Option Cadence
deriving DecidableEq, Repr

/-- `jobInsertAfterTool.execute`: look up the anchor, enforce the per-level
sibling maxima (12 `small`, 6 `micro`), then delegate to
`JobRepo.insertAfter` with phase/cadence defaulted from the anchor. -/
def jobInsertAfterTool (jobs : List Job) (afterJobId : String) (args : InsertToolArgs)
    (newId : String) : ToolOutcome :=
  match findById jobs afterJobId with
  | none => ⟨false, jobs⟩
  | some afterJob =>
    let parentId := afterJob.parentId
    let siblingCount :=
      match parentId with
      | some pid => countChildren jobs pid
      | none => (findRootJobs jobs afterJob.graphId).length
    let maxByLevel : Option Nat :=
      if afterJob.level == JobLevel.small then some 12
      else if afterJob.level == JobLevel.micro then some 6
      else none
    match maxByLevel with
    | some m =>
      if m ≤ siblingCount then ⟨false, jobs⟩
      else
        match insertAfter jobs afterJobId
            { graphId := afterJob.graphId, level := afterJob.level, parentId := parentId,
              formulation := args.formulation, label := args.label,
              phase := args.phase.getD afterJob.phase,
              cadence := args.cadence.getD afterJob.cadence, scoresJson := false } newId with
        | some (jobs', _) => ⟨true, jobs'⟩
        | none => ⟨false, jobs⟩
    | none =>
      match insertAfter jobs afterJobId
          { graphId := afterJob.graphId, level := afterJob.level, parentId := parentId,
            formulation := args.formulation, label := args.label,
            phase := args.phase.getD afterJob.phase,
            cadence := args.cadence.getD afterJob.cadence, scoresJson := false } newId with
      | some (jobs', _) => ⟨true, jobs'⟩
      | none => ⟨false, jobs⟩

/-- The sibling list the `job_reorder` tool compares against
(`findByParentId` for a parent, `findRootJobs` for root level). -/
def expectedSiblings (jobs : List Job) (graphId : String) (parentId : Option String) :
    List Job :=
  match parentId with
  | some pid => findByParentId jobs pid
  | none => findRootJobs jobs graphId

/-- The unsorted sibling scope underlying `expectedSiblings`. -/
def scopeFilter (jobs : List Job) (graphId : String) (parentId : Option String) :
    List Job :=
  match parentId with
  | some pid => jobs.filter (fun j => j.parentId == some pid)
  | none => jobs.filter (fun j => j.graphId == graphId && j.parentId == none)

/-- `jobReorderTool.execute`: graph lookup, duplicate check, parent check,
missing-sibling check and membership check, then `JobRepo.reorder`.  Every
failing check returns before any write. -/
def jobReorderTool (graphs : List GraphRec) (jobs : List Job) (graphId : String)
    (parentId : Option String) (jobIds : List String) : ToolOutcome :=
  match graphs.find? (fun g => g.id == graphId) with
  | none => ⟨false, jobs⟩
  | some _ =>
    if ¬ jobIds.Nodup then ⟨false, jobs⟩
    else
      let parentOk :=
        match parentId with
        | none => true
        | some pid =>
          match findById jobs pid with
          | none => false
          | some parentJob => parentJob.graphId == graphId
      if parentOk = false then ⟨false, jobs⟩
      else
        let expectedJobs := expectedSiblings jobs graphId parentId
        let missingIds := (expectedJobs.map Job.id).filter (fun id => ¬ jobIds.contains id)
        if missingIds ≠ [] then ⟨false, jobs⟩
        else
          let mismatched := jobIds.filter (fun id =>
            match findById jobs id with
            | none => true
            | some j => j.graphId ≠ graphId ∨ j.parentId ≠ parentId)
          if mismatched ≠ [] then ⟨false, jobs⟩
          else ⟨true, reorder jobs jobIds⟩

-- Cascade delete (`db/index.ts`: `ON DELETE CASCADE` with foreign keys on)

/-- One round of SQLite's cascading delete: add the ids of all jobs whose
parent is already doomed. -/
def closureStep (jobs : List Job) (acc : List String) : List String :=
  acc ++ (jobs.filter (fun j =>
    (match j.parentId with
     | some p => acc.contains p
     | none => false) && ¬ acc.contains j.id)).map Job.id

/-- The set of job ids removed when deleting `id`: iterate the cascade
enough times to reach a fixed point. -/
def doomedList (jobs : List Job) (id : String) : List String :=
  (closureStep jobs)^[jobs.length] [id]

/-- `BaseRepo.delete` on the `jobs` table under `PRAGMA foreign_keys = ON`:
the row, its transitive child rows, their solutions and every edge touching
a removed job disappear in one transaction. -/
def deleteCascade (st : DBState) (id : String) : DBState :=
  let doomed := doomedList st.jobs id
  { jobs := st.jobs.filter (fun j => ¬ doomed.contains j.id),
    solutions := st.solutions.filter (fun s => ¬ doomed.contains s.jobId),
    edges := st.edges.filter (fun e => ¬ (doomed.contains e.fromId || doomed.contains e.toId)) }

/-- Specification-side descendant relation: `Desc jobs root s` holds when
the job id `s` is `root` itself or reachable from `root` by following
`parentId` links downwards. -/
inductive Desc (jobs : List Job) (root : String) : String → Prop
  | refl : Desc jobs root root
  | child (j : Job) (p : String) : j ∈ jobs → j.parentId = some p →
      Desc jobs root p → Desc jobs root j.id

/-- A set of ids closed under the child relation: cascading cannot grow it. -/
def Closed (jobs : List Job) (S : List String) : Prop :=
  ∀ j ∈ jobs, ∀ p, j.parentId = some p → p ∈ S → j.id ∈ S

-- Validation engine (`src/apps/api/src/domain/validation.ts`)

/-- `FORMULATION_PREFIXES_RU` / `FORMULATION_PREFIXES_EN`. -/
def formulationPrefixes (language : String) : List (List Char) :=
  if language == "ru" then
    ["я хочу".data, "я хотел бы".data, "мне нужно".data, "мне необходимо".data]
  else
    ["i want to".data, "i need to".data, "i would like to".data]

/-- `hasValidFormulationPrefix`: the lower-cased, trimmed formulation must
start with one of the profile's first-person lead-ins. -/
def hasValidFormulationStart (formulation : List Char) (language : String) : Bool :=
  let lower := jsTrim (formulation.map jsToLower)
  (formulationPrefixes language).any (fun p => startsWithL p lower)

/-- `hasValidLabelFormat`: non-empty and not starting with a first-person
lead-in. -/
def hasValidLabelFormat (label : List Char) (language : String) : Bool :=
  let lower := jsTrim (label.map jsToLower)
  if (formulationPrefixes language).any (fun p => startsWithL p lower) then false
  else if (jsTrim label).length == 0 then false
  else true

/-- `hasMultipleActions`: the language's conjunction patterns tested against
the lower-cased text. -/
def hasMultipleActions (text : List Char) (language : String) : Bool :=
  let lower := text.map jsToLower
  if language == "ru" then
    containsSub " и ".data lower || containsSub " а также ".data lower ||
      containsSub ", а ".data lower
  else
    containsSub " and ".data lower || containsSub " & ".data lower

/-- Severity of a validation finding. -/
inductive Severity
  | error | warning
deriving DecidableEq, Repr

/-- A `ValidationError` record (`code`, optional `jobId`, `severity`). -/
structure ValidationError where
  code : String
  jobId : Option String
  severity : Severity
deriving DecidableEq, Repr

/-- `validateJob(job, language)`: the four per-job checks, in source order. -/
def validateJob (job : Job) (language : String) : List ValidationError :=
  (if hasValidFormulationStart job.formulation language then []
   else [⟨"INVALID_FORMULATION", some job.id, Severity.error⟩]) ++
  (if hasValidLabelFormat job.label language then []
   else [⟨"INVALID_LABEL", some job.id, Severity.error⟩]) ++
  (if hasMultipleActions job.formulation language then
    [⟨"MULTIPLE_ACTIONS", some job.id, Severity.warning⟩]
   else []) ++
  (if job.phase == Phase.unknown then
    [⟨"UNKNOWN_PHASE", some job.id, Severity.warning⟩]
   else [])

/-- `TOO_FEW_…` / `TOO_MANY_…` code text for a level. -/
def levelUpper : JobLevel → String
  | JobLevel.big => "BIG"
  | JobLevel.core => "CORE"
  | JobLevel.small => "SMALL"
  | JobLevel.micro => "MICRO"

/-- `validateJobCounts(jobs, level, parentId, min, max)`: count the jobs of
`level` under `parentId` (literally `j.parentId === null` when `parentId`
is null) and emit the too-few / too-many warnings. -/
def validateJobCounts (jobs : List Job) (level : JobLevel) (parentId : Option String)
    (lo hi : Nat) : List ValidationError :=
  let filtered := jobs.filter (fun j => j.level == level && j.parentId == parentId)
  (if filtered.length < lo then
    [⟨"TOO_FEW_" ++ levelUpper level ++ "_JOBS", none, Severity.warning⟩]
   else []) ++
  (if hi < filtered.length then
    [⟨"TOO_MANY_" ++ levelUpper level ++ "_JOBS", none, Severity.warning⟩]
   else [])

/-- The `stats` object of `validateGraph` (`microJobCounts` as an
association list in first-seen order). -/
structure ValidationStats where
  totalJobs : Nat
  smallJobCount : Nat
  microJobCounts : List (String × Nat)
  jobsWithSolutions : Nat
  jobsWithScores : Nat
deriving DecidableEq, Repr

/-- `microJobCounts[parent] = (microJobCounts[parent] || 0) + 1`. -/
def bumpCount : List (String × Nat) → String → List (String × Nat)
  | [], p => [(p, 1)]
  | (q, n) :: rest, p => if q == p then (q, n + 1) :: rest else (q, n) :: bumpCount rest p

/-- The `validate` result (`valid`, `errors`, `warnings`, `stats`). -/
structure ValidationResult where
  valid : Bool
  errors : List ValidationError
  warnings : List ValidationError
  stats : ValidationStats
deriving DecidableEq, Repr

/-- `validateGraph(graphId, language)` from
`src/apps/api/src/domain/validation.ts`: per-job checks split by severity,
stats accumulation, the graph-wide small-job count check (called with
`parentId = null`), and the per-small-parent micro-job count checks. -/
def validateGraph (st : DBState) (graphId : String) (language : String) :
    ValidationResult :=
  let jobs := findByGraphIdList st.jobs graphId
  let perJob := jobs.map (fun j => validateJob j language)
  let errors := (perJob.map (fun l => l.filter (fun e => e.severity == Severity.error))).flatten
  let jobWarnings :=
    (perJob.map (fun l => l.filter (fun e => e.severity == Severity.warning))).flatten
  let stats : ValidationStats :=
    { totalJobs := jobs.length,
      smallJobCount := (jobs.filter (fun j => j.level == JobLevel.small)).length,
      microJobCounts := jobs.foldl (fun acc j =>
        if j.level == JobLevel.micro then
          match j.parentId with
          | some p => bumpCount acc p
          | none => acc
        else acc) [],
      jobsWithSolutions :=
        (jobs.filter (fun j => 0 < countByJobId st.solutions j.id)).length,
      jobsWithScores := (jobs.filter (fun j => j.scoresJson)).length }
  let smallJobWarnings := validateJobCounts jobs JobLevel.small none 8 12
  let smallJobs := jobs.filter (fun j => j.level == JobLevel.small)
  let microWarnings := (smallJobs.map (fun sj =>
    (validateJobCounts jobs JobLevel.micro (some sj.id) 3 6).map
      (fun e => { e with jobId := some sj.id }))).flatten
  let warnings := jobWarnings ++ smallJobWarnings ++ microWarnings
  { valid := errors.length == 0, errors := errors, warnings := warnings, stats := stats }

-- Normalization engine, graph level (`normalization.ts`)

/-- A `NormalizationChange` record. -/
structure NormalizationChange where
  jobId : String
  field : String
  oldValue : List Char
  newValue : List Char
deriving DecidableEq, Repr

/-- The loop body of `normalizeGraph` for one job: compute the normalized
formulation and label, record a change for each field that differs, and
apply the update. -/
def normalizeGraphStep (language : String) (job : Job) : Job × List NormalizationChange :=
  let normalizedFormulation := normalizeFormulation job.formulation language
  let fChanges : List NormalizationChange :=
    if normalizedFormulation ≠ job.formulation then
      [⟨job.id, "formulation", job.formulation, normalizedFormulation⟩]
    else []
  let job₁ :=
    if normalizedFormulation ≠ job.formulation then
      { job with formulation := normalizedFormulation }
    else job
  let normalizedLabel := normalizeLabel job.label language
  let lChanges : List NormalizationChange :=
    if normalizedLabel ≠ job.label then
      [⟨job.id, "label", job.label, normalizedLabel⟩]
    else []
  let job₂ :=
    if normalizedLabel ≠ job.label then { job₁ with label := normalizedLabel } else job₁
  (job₂, fChanges ++ lChanges)

/-- `normalizeGraph(graphId, language)` restricted to a graph's job list:
returns the updated jobs and the accumulated change list. -/
def normalizeGraph (jobs : List Job) (language : String) :
    List Job × List NormalizationChange :=
  ((jobs.map (normalizeGraphStep language)).map Prod.fst,
   ((jobs.map (normalizeGraphStep language)).map Prod.snd).flatten)

/-- `autofixGraph` = `normalizeGraph` (the extra fixes are not implemented). -/
def autofixGraph (jobs : List Job) (language : String) :
    List Job × List NormalizationChange :=
  normalizeGraph jobs language

-- View generator (`graph-views.ts`, `generateUIv1View`)

/-- A nested micro-job entry of the `ui_v1` view. -/
structure MicroEntry where
  id : String
  label : List Char
  formulation : List Char
  cadence : Cadence
  sortOrder : Nat
deriving DecidableEq, Repr

/-- A `JobWithMicros` entry of the `ui_v1` view. -/
structure JobWithMicros where
  id : String
  label : List Char
  formulation : List Char
  phase : Phase
  cadence : Cadence
  scoresJson : Bool
  sortOrder : Nat
  microJobs : List MicroEntry
  solutionCount : Nat
deriving DecidableEq, Repr

/-- The `jobs` object of the `ui_v1` view: one group per known phase. -/
structure UIv1Jobs where
  before : List JobWithMicros
  during : List JobWithMicros
  after : List JobWithMicros
deriving DecidableEq, Repr

/-- The `stats` object of the `ui_v1` view. -/
structure UIv1Stats where
  totalJobs : Nat
  smallJobCount : Nat
  microJobCount : Nat
  solutionCount : Nat
deriving DecidableEq, Repr

/-- The `ui_v1` view (graph summary, phase groups, stats). -/
structure UIv1View where
  graphId : String
  segment : String
  coreJob : String
  bigJob : Option String
  language : String
  jobs : UIv1Jobs
  stats : UIv1Stats
deriving DecidableEq, Repr

/-- `transformJob` of `generateUIv1View`. -/
def transformJob (st : DBState) (microJobs : List Job) (job : Job) : JobWithMicros :=
  { id := job.id, label := job.label, formulation := job.formulation,
    phase := job.phase, cadence := job.cadence, scoresJson := job.scoresJson,
    sortOrder := job.sortOrder,
    microJobs := (sortByOrder (microJobs.filter (fun m => m.parentId == some job.id))).map
      (fun m => ⟨m.id, m.label, m.formulation, m.cadence, m.sortOrder⟩),
    solutionCount := countByJobId st.solutions job.id }

/-- `generateUIv1View(graphId)`: `null` when the graph is missing, otherwise
small jobs grouped by the three known phases (each sorted by `sortOrder`),
with nested micro jobs and aggregate stats. -/
def generateUIv1View (graphs : List GraphRec) (st : DBState) (graphId : String) :
    Option UIv1View :=
  match graphs.find? (fun g => g.id == graphId) with
  | none => none
  | some graph =>
    let allJobs := findByGraphIdList st.jobs graphId
    let smallJobs := allJobs.filter (fun j => j.level == JobLevel.small)
    let microJobs := allJobs.filter (fun j => j.level == JobLevel.micro)
    some
      { graphId := graph.id, segment := graph.segment, coreJob := graph.coreJob,
        bigJob := graph.bigJob, language := graph.language,
        jobs :=
          { before := (sortByOrder (smallJobs.filter (fun j => j.phase == Phase.before))).map
              (transformJob st microJobs),
            during := (sortByOrder (smallJobs.filter (fun j => j.phase == Phase.during))).map
              (transformJob st microJobs),
            after := (sortByOrder (smallJobs.filter (fun j => j.phase == Phase.after))).map
              (transformJob st microJobs) },
        stats :=
          { totalJobs := allJobs.length, smallJobCount := smallJobs.length,
            microJobCount := microJobs.length,
            solutionCount := (allJobs.map (fun j => countByJobId st.solutions j.id)).sum } }

-- Specification-side predicates used to state the claims

/-- The `sortOrder` values of the direct children of `(graphId, parentId)`,
in stored row order. -/
def scopeOrders (jobs : List Job) (graphId : String) (parentId : Option String) :
    List Nat :=
  (jobs.filter (fun j => j.graphId == graphId && j.parentId == parentId)).map Job.sortOrder

/-- The `sortOrder` invariant of the spec for one sibling scope: the values
are exactly `{0, 1, …, n-1}` — no gaps, no duplicates. -/
def ContiguousScope (jobs : List Job) (graphId : String) (parentId : Option String) :
    Prop :=
  List.Perm (scopeOrders jobs graphId parentId)
    (List.range (scopeOrders jobs graphId parentId).length)

instance (jobs : List Job) (graphId : String) (parentId : Option String) :
    Decidable (ContiguousScope jobs graphId parentId) :=
  inferInstanceAs (Decidable (List.Perm _ _))

/-- The `sortOrder` rewrite applied by `insertAfter`'s sibling shift. -/
def shiftVal (a k : Nat) : Nat := if a < k then k + 1 else k

/-- Index of the first occurrence of `s`. -/
def posOf : List String → String → Nat
  | [], _ => 0
  | x :: xs, s => if x == s then 0 else posOf xs s + 1

/-- Leading/trailing-whitespace-freeness, the shape invariant used to reason
about `jsTrim`. -/
def NoLead (s : List Char) : Prop := s.dropWhile isWs = s

/-- No trailing whitespace. -/
def NoTrail (s : List Char) : Prop := NoLead s.reverse

-- Concrete fixtures for witnesses and counterexamples

/-- A baseline job record; fixtures override the relevant fields. -/
def baseJob : Job :=
  { id := "j", graphId := "g", level := JobLevel.small, parentId := some "core",
    formulation := "i want to a".data, label := "B".data, phase := Phase.during,
    cadence := Cadence.once, scoresJson := false, sortOrder := 0 }

/-- Fixture: a core job with ten small children (each with four micro
children), all linguistically well-formed — the shape §8 of the spec calls
valid. -/
def fixtureC6 : DBState :=
  { jobs :=
      [{ baseJob with id := "core", level := JobLevel.core, parentId := none }] ++
      ((List.range 10).map (fun i =>
        { baseJob with id := "s" ++ toString i, parentId := some "core", sortOrder := i })) ++
      ((List.range 10).flatMap (fun i => (List.range 4).map (fun k =>
        { baseJob with
          id := "m" ++ toString i ++ "x" ++ toString k,
          level := JobLevel.micro, parentId := some ("s" ++ toString i), sortOrder := k }))),
    solutions := [], edges := [] }

/-- Fixture: a core job with three small children, sort orders 0, 1, 2. -/
def fixtureSiblings : List Job :=
  [{ baseJob with id := "core", level := JobLevel.core, parentId := none },
   { baseJob with id := "a", sortOrder := 0 },
   { baseJob with id := "b", sortOrder := 1 },
   { baseJob with id := "c", sortOrder := 2 }]

/-- Fixture: a core job with twelve small children (the `small` cap). -/
def fixtureFullSmall : List Job :=
  [{ baseJob with id := "core", level := JobLevel.core, parentId := none }] ++
  ((List.range 12).map (fun i =>
    { baseJob with id := "s" ++ toString i, parentId := some "core", sortOrder := i }))

/-- Fixture: a small job with six micro children (the `micro` cap). -/
def fixtureFullMicro : List Job :=
  [{ baseJob with id := "s", parentId := none }] ++
  ((List.range 6).map (fun i =>
    { baseJob with
      id := "m" ++ toString i, level := JobLevel.micro,
      parentId := some "s", sortOrder := i }))

/-- Fixture for the cascade-delete example: a graph `g` whose small job `s`
has four micro children and two solutions (plus a second small job, an edge
referencing a doomed child, and an unrelated graph `h`). -/
def fixtureC8 : DBState :=
  { jobs :=
      [{ baseJob with id := "core", level := JobLevel.core, parentId := none },
       { baseJob with id := "s", sortOrder := 0 },
       { baseJob with id := "s2", sortOrder := 1 },
       { baseJob with id := "m0", level := JobLevel.micro, parentId := some "s" },
       { baseJob with id := "m1", level := JobLevel.micro, parentId := some "s", sortOrder := 1 },
       { baseJob with id := "m2", level := JobLevel.micro, parentId := some "s", sortOrder := 2 },
       { baseJob with id := "m3", level := JobLevel.micro, parentId := some "s", sortOrder := 3 },
       { baseJob with id := "hj", graphId := "h", level := JobLevel.core, parentId := none }],
    solutions := [⟨"sol1", "s"⟩, ⟨"sol2", "s"⟩, ⟨"sol3", "s2"⟩, ⟨"sol4", "hj"⟩],
    edges := [⟨"e1", "g", "m0", "s2"⟩, ⟨"e2", "g", "s2", "core"⟩] }

/-- Fixture for the timeline view: a graph with one `during` small job and
one small job whose phase is `unknown`. -/
def fixtureC10 : DBState :=
  { jobs :=
      [{ baseJob with id := "core", level := JobLevel.core, parentId := none },
       { baseJob with id := "d", sortOrder := 0 },
       { baseJob with id := "u", phase := Phase.unknown, sortOrder := 1 }],
    solutions := [], edges := [] }

/-- The graph-table fixture shared by the tool-level witnesses. -/
def fixtureGraphs : List GraphRec :=
  [{ id := "g", language := "en", segment := "seg", coreJob := "I want to a", bigJob := none }]

/-- Payload used by the `insertAfter` witnesses (same scope as anchor `a`). -/
def c1Payload : NewJobPayload :=
  { graphId := "g", level := JobLevel.small, parentId := some "core",
    formulation := "i want to n".data, label := "N".data, phase := Phase.during,
    cadence := Cadence.once, scoresJson := false }

/-- The result of inserting after job `a` in `fixtureSiblings`. -/
def c1Result : List Job × Job :=
  (insertAfter fixtureSiblings "a" c1Payload "n").getD ([], baseJob)

/-- The anchor record of `fixtureSiblings`. -/
def c1Anchor : Job := { baseJob with id := "a", sortOrder := 0 }

/-- Tool arguments used by the insert-limit witnesses. -/
def c7Args : InsertToolArgs :=
  { formulation := "i want to x".data, label := "X".data, phase := none, cadence := none }

/-- The small-level anchor of `fixtureFullSmall`. -/
def c7AnchorS : Job := { baseJob with id := "s0", parentId := some "core", sortOrder := 0 }

/-- The micro-level anchor of `fixtureFullMicro`. -/
def c7AnchorM : Job :=
  { baseJob with id := "m0", level := JobLevel.micro, parentId := some "s", sortOrder := 0 }

/-- The unknown-phase small job of `fixtureC10`. -/
def c10U : Job := { baseJob with id := "u", phase := Phase.unknown, sortOrder := 1 }

/-- The deleted small job of `fixtureC8`. -/
def c8S : Job := { baseJob with id := "s", sortOrder := 0 }

/-- A micro child of `c8S` in `fixtureC8`. -/
def c8M1 : Job :=
  { baseJob with id := "m1", level := JobLevel.micro, parentId := some "s", sortOrder := 1 }

/-- The `ui_v1` view computed on `fixtureC10`. -/
def c10View : UIv1View :=
  (generateUIv1View fixtureGraphs fixtureC10 "g").getD
    ⟨"", "", "", none, "", ⟨[], [], []⟩, ⟨0, 0, 0, 0⟩⟩

/-- The single graph record of `fixtureGraphs`. -/
def c3Graph : GraphRec :=
  { id := "g", language := "en", segment := "seg", coreJob := "I want to a", bigJob := none }

/-- The core (parent) record of `fixtureSiblings`. -/
def c3Core : Job := { baseJob with id := "core", level := JobLevel.core, parentId := none }

-- ======================================================================
-- Theorems
-- ======================================================================

-- Whitespace and trim lemmas

theorem dropWhile_dropWhile (p : Char → Bool) (l : List Char) :
    (l.dropWhile p).dropWhile p = l.dropWhile p := by
  induction l with
  | nil => rfl
  | cons a l ih =>
    cases hpa : p a with
    | true => simp [List.dropWhile_cons, hpa, ih]
    | false => simp [List.dropWhile_cons, hpa]

theorem noLead_nil : NoLead [] := rfl

theorem noLead_cons {c : Char} (l : List Char) (h : isWs c = false) : NoLead (c :: l) := by
  simp [NoLead, List.dropWhile_cons, h]

theorem noLead_head {c : Char} {l : List Char} (h : NoLead (c :: l)) : isWs c = false := by
  cases hc : isWs c with
  | false => rfl
  | true =>
    exfalso
    unfold NoLead at h
    rw [List.dropWhile_cons, hc] at h
    simp only [if_true] at h
    have hlen := congrArg List.length h
    have hle : (l.dropWhile isWs).length ≤ l.length :=
      (List.dropWhile_suffix isWs).sublist.length_le
    simp only [List.length_cons] at hlen
    omega

theorem noLead_of_pfx {s t : List Char} (hp : s <+: t) (ht : NoLead t) : NoLead s := by
  cases s with
  | nil => rfl
  | cons c s' =>
    obtain ⟨u, hu⟩ := hp
    cases t with
    | nil => simp at hu
    | cons d t' =>
      rw [List.cons_append] at hu
      injection hu with h1 _
      subst h1
      exact noLead_cons s' (noLead_head ht)

theorem noTrail_of_sfx {s t : List Char} (hs : s <:+ t) (ht : NoTrail t) : NoTrail s :=
  noLead_of_pfx (List.reverse_prefix.mpr hs) ht

theorem jsTrim_noTrail (s : List Char) : NoTrail (jsTrim s) := by
  unfold NoTrail NoLead jsTrim
  rw [List.reverse_reverse]
  exact dropWhile_dropWhile _ _

theorem jsTrim_noLead (s : List Char) : NoLead (jsTrim s) := by
  have h1 : NoLead (s.dropWhile isWs) := dropWhile_dropWhile _ _
  refine noLead_of_pfx ?_ h1
  unfold jsTrim
  conv_rhs => rw [← List.reverse_reverse (s.dropWhile isWs)]
  exact List.reverse_prefix.mpr (List.dropWhile_suffix isWs)

theorem jsTrim_eq_self {s : List Char} (h1 : NoLead s) (h2 : NoTrail s) : jsTrim s = s := by
  unfold NoTrail at h2
  unfold NoLead at h1 h2
  unfold jsTrim
  rw [h1, h2, List.reverse_reverse]

theorem noTrail_append {x r : List Char} (h : NoTrail r) (hne : r ≠ []) :
    NoTrail (x ++ r) := by
  unfold NoTrail at h ⊢
  rw [List.reverse_append]
  cases hr : r.reverse with
  | nil =>
    exact absurd (by simpa using congrArg List.reverse hr) hne
  | cons w t =>
    rw [hr] at h
    rw [List.cons_append]
    exact noLead_cons _ (noLead_head h)

-- Pattern-matching lemmas for `normalizeFormulation`

theorem matchCI_suffix : ∀ (lit s r : List Char), matchCI lit s = some r → r <:+ s := by
  intro lit
  induction lit with
  | nil =>
    intro s r h
    simp [matchCI] at h
    exact h ▸ List.suffix_refl s
  | cons l ls ih =>
    intro s r h
    cases s with
    | nil => simp [matchCI] at h
    | cons c cs =>
      by_cases hc : jsToLower c = l
      · rw [matchCI, if_pos hc] at h
        exact (ih cs r h).trans (List.suffix_cons c cs)
      · rw [matchCI, if_neg hc] at h
        cases h

theorem tryPattern_parts {lit s r : List Char} (h : tryPattern lit s = some r) :
    ∃ rest c rest', matchCI lit s = some rest ∧ rest = c :: rest' ∧ isWs c = true ∧
      r = rest.dropWhile isWs := by
  unfold tryPattern at h
  cases hm : matchCI lit s with
  | none => rw [hm] at h; simp at h
  | some rest =>
    rw [hm] at h
    cases rest with
    | nil => simp at h
    | cons c rest' =>
      dsimp only at h
      cases hw : isWs c with
      | false => rw [hw] at h; simp at h
      | true =>
        rw [hw] at h
        rw [if_pos rfl] at h
        injection h with h
        exact ⟨c :: rest', c, rest', rfl, rfl, hw, h.symm⟩

theorem tryPattern_suffix {lit s r : List Char} (h : tryPattern lit s = some r) :
    r <:+ s := by
  obtain ⟨rest, c, rest', hm, _, _, hr⟩ := tryPattern_parts h
  exact (hr ▸ List.dropWhile_suffix isWs).trans (matchCI_suffix lit s rest hm)

theorem tryPattern_ne_nil {lit s r : List Char} (hs : NoTrail s)
    (h : tryPattern lit s = some r) : r ≠ [] := by
  obtain ⟨rest, c, rest', hm, hrest, hw, hr⟩ := tryPattern_parts h
  intro hnil
  rw [hnil] at hr
  have hall : ∀ x ∈ rest, isWs x = true := by
    rw [← List.dropWhile_eq_nil_iff]
    exact hr.symm
  have hsfx : rest <:+ s := matchCI_suffix lit s rest hm
  have hpfx : rest.reverse <+: s.reverse := List.reverse_prefix.mpr hsfx
  obtain ⟨u, hu⟩ := hpfx
  cases hrev : rest.reverse with
  | nil =>
    rw [hrest] at hrev
    simp at hrev
  | cons w t =>
    have hwmem : w ∈ rest := by
      have : w ∈ rest.reverse := by rw [hrev]; exact List.mem_cons_self w t
      exact List.mem_reverse.mp this
    rw [hrev, List.cons_append] at hu
    unfold NoTrail at hs
    rw [← hu] at hs
    have := noLead_head hs
    rw [hall w hwmem] at this
    cases this

-- The substitution pass keeps the text trimmed and nonempty

theorem applySub_good {lit repl s : List Char}
    (hrep : repl ≠ [] ∧ isWs repl.headI = false)
    (h : NoLead s ∧ NoTrail s ∧ s ≠ []) :
    NoLead (applySub lit repl s) ∧ NoTrail (applySub lit repl s) ∧
      applySub lit repl s ≠ [] := by
  cases htp : tryPattern lit s with
  | none =>
    have heq : applySub lit repl s = s := by unfold applySub; rw [htp]
    rw [heq]; exact h
  | some r =>
    have heq : applySub lit repl s = repl ++ r := by unfold applySub; rw [htp]
    rw [heq]
    obtain ⟨hne0, hhead⟩ := hrep
    have hrne : r ≠ [] := tryPattern_ne_nil h.2.1 htp
    have hrtr : NoTrail r := noTrail_of_sfx (tryPattern_suffix htp) h.2.1
    cases repl with
    | nil => exact absurd rfl hne0
    | cons c t =>
      have hw : isWs c = false := by simpa using hhead
      refine ⟨?_, noTrail_append hrtr hrne, ?_⟩
      · rw [List.cons_append]; exact noLead_cons _ hw
      · simp

theorem applySubs_good (pats : List (List Char × List Char))
    (hp : ∀ q ∈ pats, q.2 ≠ [] ∧ isWs q.2.headI = false) :
    ∀ s, NoLead s ∧ NoTrail s ∧ s ≠ [] →
      NoLead (applySubs pats s) ∧ NoTrail (applySubs pats s) ∧ applySubs pats s ≠ [] := by
  induction pats with
  | nil => intro s h; exact h
  | cons p ps ih =>
    intro s h
    have hstep := @applySub_good p.1 p.2 s (hp p (List.mem_cons_self p ps)) h
    have heq : applySubs (p :: ps) s = applySubs ps (applySub p.1 p.2 s) := rfl
    rw [heq]
    exact ih (fun q hq => hp q (List.mem_cons_of_mem p hq)) _ hstep

-- A string that already carries the canonical lead-in is a fixed point of
-- the substitution pass and of the prefix test

theorem ruSubsFixed (z : List Char) :
    applySubs FORMULATION_NORMALIZE_RU (CANONICAL_RU ++ z) = CANONICAL_RU ++ z := rfl

theorem enSubsFixed (z : List Char) :
    applySubs FORMULATION_NORMALIZE_EN (CANONICAL_EN ++ z) = CANONICAL_EN ++ z := rfl

theorem ruStarts (z : List Char) :
    startsWithCI (CANONICAL_RU.map jsToLower) (CANONICAL_RU ++ z) = true := rfl

theorem enStarts (z : List Char) :
    startsWithCI (CANONICAL_EN.map jsToLower) (CANONICAL_EN ++ z) = true := rfl

-- Shape of `normalizeFormulation`'s output

theorem normShape_core (pats : List (List Char × List Char)) (canon : List Char)
    (hp : ∀ q ∈ pats, q.2 ≠ [] ∧ isWs q.2.headI = false)
    (hcne : canon ≠ []) (hchead : isWs canon.headI = false) (hcTrail : NoTrail canon)
    (t : List Char) (ht : NoLead t ∧ NoTrail t ∧ t ≠ []) :
    ∃ z, (if startsWithCI (canon.map jsToLower) (applySubs pats t) = true then
            canon ++ (applySubs pats t).drop canon.length
          else canon ++ ' ' :: applySubs pats t) = canon ++ z ∧
      NoLead (canon ++ z) ∧ NoTrail (canon ++ z) := by
  obtain ⟨hrl, hrt, hrne⟩ := applySubs_good pats hp t ht
  have hlead : ∀ z' : List Char, NoLead (canon ++ z') := by
    intro z'
    cases canon with
    | nil => exact absurd rfl hcne
    | cons c t' =>
      have hw : isWs c = false := by simpa using hchead
      rw [List.cons_append]
      exact noLead_cons _ hw
  by_cases hs : startsWithCI (canon.map jsToLower) (applySubs pats t) = true
  · refine ⟨(applySubs pats t).drop canon.length, by rw [if_pos hs], hlead _, ?_⟩
    cases hd : (applySubs pats t).drop canon.length with
    | nil => rw [List.append_nil]; exact hcTrail
    | cons d ds =>
      have hsfx : (applySubs pats t).drop canon.length <:+ applySubs pats t :=
        List.drop_suffix _ _
      have hnt : NoTrail ((applySubs pats t).drop canon.length) :=
        noTrail_of_sfx hsfx hrt
      rw [hd] at hnt
      exact noTrail_append hnt (by simp)
  · refine ⟨' ' :: applySubs pats t, by rw [if_neg hs], hlead _, ?_⟩
    have heq : canon ++ ' ' :: applySubs pats t = (canon ++ [' ']) ++ applySubs pats t := by
      simp
    rw [heq]
    exact noTrail_append hrt hrne

theorem normalizeFormulation_shape (x : List Char) (lang : String) (hx : jsTrim x ≠ []) :
    ∃ z, normalizeFormulation x lang =
        (if lang == "ru" then CANONICAL_RU else CANONICAL_EN) ++ z ∧
      NoLead (normalizeFormulation x lang) ∧ NoTrail (normalizeFormulation x lang) := by
  have ht : NoLead (jsTrim x) ∧ NoTrail (jsTrim x) ∧ jsTrim x ≠ [] :=
    ⟨jsTrim_noLead x, jsTrim_noTrail x, hx⟩
  by_cases hl : (lang == "ru") = true
  · obtain ⟨z, hz, h1, h2⟩ :=
      normShape_core FORMULATION_NORMALIZE_RU CANONICAL_RU (by decide) (by decide)
        (by decide) (by rfl) (jsTrim x) ht
    have hbody : normalizeFormulation x lang = CANONICAL_RU ++ z := by
      simp only [normalizeFormulation, hl, eq_self_iff_true, if_true]
      exact hz
    exact ⟨z, by rw [hbody, if_pos hl], by rw [hbody]; exact h1, by rw [hbody]; exact h2⟩
  · obtain ⟨z, hz, h1, h2⟩ :=
      normShape_core FORMULATION_NORMALIZE_EN CANONICAL_EN (by decide) (by decide)
        (by decide) (by rfl) (jsTrim x) ht
    have hbody : normalizeFormulation x lang = CANONICAL_EN ++ z := by
      simp only [normalizeFormulation, Bool.not_eq_true] at hl ⊢
      simp only [hl, Bool.false_eq_true, if_false]
      exact hz
    exact ⟨z, by rw [hbody, if_neg hl], by rw [hbody]; exact h1, by rw [hbody]; exact h2⟩

theorem normalizeFormulation_fix (lang : String) {y z : List Char}
    (hz : y = (if lang == "ru" then CANONICAL_RU else CANONICAL_EN) ++ z)
    (h1 : NoLead y) (h2 : NoTrail y) : normalizeFormulation y lang = y := by
  by_cases hl : (lang == "ru") = true
  · rw [if_pos hl] at hz
    subst hz
    simp only [normalizeFormulation, hl, eq_self_iff_true, if_true]
    rw [jsTrim_eq_self h1 h2, ruSubsFixed, if_pos (ruStarts z), List.drop_left]
  · rw [if_neg hl] at hz
    subst hz
    simp only [Bool.not_eq_true] at hl
    simp only [normalizeFormulation, hl, Bool.false_eq_true, if_false]
    rw [jsTrim_eq_self h1 h2, enSubsFixed, if_pos (enStarts z), List.drop_left]

/-- `normalizeFormulation` is idempotent on every input whose trimmed form
is nonempty, for every language. -/
theorem normalizeFormulation_idem_aux (x : List Char) (lang : String)
    (hx : jsTrim x ≠ []) :
    normalizeFormulation (normalizeFormulation x lang) lang
      = normalizeFormulation x lang := by
  obtain ⟨z, hz, h1, h2⟩ := normalizeFormulation_shape x lang hx
  exact normalizeFormulation_fix lang hz h1 h2

-- The second normalization pass of a job is a no-op under the fixed-point
-- hypotheses

theorem step_fixed (lang : String) (j : Job)
    (hf : normalizeFormulation (normalizeFormulation j.formulation lang) lang
        = normalizeFormulation j.formulation lang)
    (hl : normalizeLabel (normalizeLabel j.label lang) lang = normalizeLabel j.label lang) :
    normalizeGraphStep lang (normalizeGraphStep lang j).1
      = ((normalizeGraphStep lang j).1, []) := by
  unfold normalizeGraphStep
  by_cases h1 : normalizeFormulation j.formulation lang = j.formulation <;>
    by_cases h2 : normalizeLabel j.label lang = j.label <;>
      simp_all

theorem normalizeGraph_second_empty (jobs : List Job) (lang : String)
    (hf : ∀ j ∈ jobs, jsTrim j.formulation ≠ [])
    (hl : ∀ j ∈ jobs,
      normalizeLabel (normalizeLabel j.label lang) lang = normalizeLabel j.label lang) :
    (normalizeGraph (normalizeGraph jobs lang).1 lang).2 = [] := by
  unfold normalizeGraph
  simp only [List.map_map, List.flatten_eq_nil_iff, List.mem_map]
  rintro l ⟨j, hj, rfl⟩
  have hstep := step_fixed lang j (normalizeFormulation_idem_aux j.formulation lang (hf j hj))
    (hl j hj)
  simp only [Function.comp_apply]
  rw [hstep]

-- ----------------------------------------------------------------------
-- Claim C9
-- ----------------------------------------------------------------------

/-- C9: on the concrete formulation `"I need to compare pricing options"`
with language `en`, `normalizeFormulation` returns exactly
`"I want to compare pricing options"` and `extractLabel` returns exactly
`"Compare pricing options"`. -/
theorem C9_concrete_normalization :
    normalizeFormulation "I need to compare pricing options".data "en"
        = "I want to compare pricing options".data ∧
      extractLabel "I need to compare pricing options".data "en"
        = "Compare pricing options".data := by
  constructor <;> decide

-- ----------------------------------------------------------------------
-- Claim C4
-- ----------------------------------------------------------------------

/-- C4 counterexample: on the empty string (whose trim is empty),
`normalizeFormulation` is not idempotent — the first pass yields
`"I want to "` (with a trailing space) and the second pass trims it to
`"I want to"`. -/
theorem C4_counterexample :
    normalizeFormulation (normalizeFormulation "".data "en") "en"
      ≠ normalizeFormulation "".data "en" := by
  decide

/-- C4 (amended): `normalizeFormulation` is idempotent for every language on
every input whose trimmed form is nonempty; inputs consisting entirely of
whitespace are the only exception. -/
theorem C4_idempotent_on_nonblank (x : List Char) (lang : String)
    (hx : jsTrim x ≠ []) :
    normalizeFormulation (normalizeFormulation x lang) lang
      = normalizeFormulation x lang :=
  normalizeFormulation_idem_aux x lang hx

/-- Witness for C4: the amended idempotence at a concrete nonblank input. -/
theorem C4_idempotent_on_nonblank_witness :
    normalizeFormulation (normalizeFormulation "I need to swim".data "en") "en"
      = normalizeFormulation "I need to swim".data "en" :=
  C4_idempotent_on_nonblank "I need to swim".data "en" (by decide)

-- ----------------------------------------------------------------------
-- Claim C5
-- ----------------------------------------------------------------------

/-- C5 counterexample: running `autofix` twice is not a fixed point in
general.  A job whose label is `"x.."` is normalized to `"X."` by the first
run (one trailing period dropped), and the second run still reports a change
(`"X."` to `"X"`), so the second change-list is nonempty. -/
theorem C5_counterexample :
    (autofixGraph (autofixGraph [{ baseJob with label := "x..".data }] "en").1 "en").2
      ≠ [] := by
  decide

/-- C5 (amended): the second `autofix` run reports an empty change-list
provided every job's formulation has a nonempty trim (making
`normalizeFormulation` idempotent on it) and `normalizeLabel` is idempotent
at every job's label; without those conditions the second run can report
changes (labels with doubled trailing periods or nested first-person
lead-ins, or all-whitespace formulations). -/
theorem C5_second_autofix_empty (jobs : List Job) (lang : String)
    (hf : ∀ j ∈ jobs, jsTrim j.formulation ≠ [])
    (hl : ∀ j ∈ jobs,
      normalizeLabel (normalizeLabel j.label lang) lang = normalizeLabel j.label lang) :
    (autofixGraph (autofixGraph jobs lang).1 lang).2 = [] :=
  normalizeGraph_second_empty jobs lang hf hl

/-- Witness for C5: a one-job graph in canonical form satisfies the
hypotheses, and the second autofix run reports no changes. -/
theorem C5_second_autofix_empty_witness :
    (autofixGraph (autofixGraph [baseJob] "en").1 "en").2 = [] :=
  C5_second_autofix_empty [baseJob] "en" (by decide) (by decide)

-- Sibling-shift helpers for `insertAfter`

theorem shiftVal_injective (a : Nat) : Function.Injective (shiftVal a) := by
  intro x y h
  unfold shiftVal at h
  split at h <;> split at h <;> omega

theorem shiftVal_ne_succ (a y : Nat) : shiftVal a y ≠ a + 1 := by
  unfold shiftVal
  split <;> omega

theorem shiftVal_le (a y : Nat) : shiftVal a y ≤ y + 1 := by
  unfold shiftVal; split <;> omega

theorem shiftSibling_graphId (a j : Job) : (shiftSibling a j).graphId = j.graphId := by
  unfold shiftSibling; split <;> rfl

theorem shiftSibling_parentId (a j : Job) : (shiftSibling a j).parentId = j.parentId := by
  unfold shiftSibling; split <;> rfl

theorem shiftSibling_gt (a j : Job) (hg : j.graphId = a.graphId) (hp : j.parentId = a.parentId)
    (hlt : a.sortOrder < j.sortOrder) :
    shiftSibling a j = { j with sortOrder := j.sortOrder + 1 } := by
  simp [shiftSibling, hg, hp, hlt]

theorem shiftSibling_le (a j : Job) (hg : j.graphId = a.graphId) (hp : j.parentId = a.parentId)
    (hle : j.sortOrder ≤ a.sortOrder) : shiftSibling a j = j := by
  simp [shiftSibling, hg, hp, Nat.not_lt.mpr hle]

theorem shiftSibling_out (a j : Job)
    (h : ¬(j.graphId = a.graphId ∧ j.parentId = a.parentId)) : shiftSibling a j = j := by
  unfold shiftSibling
  rw [if_neg]
  intro hc
  simp only [Bool.and_eq_true, beq_iff_eq, decide_eq_true_eq] at hc
  exact h ⟨hc.1.1, hc.1.2⟩

theorem shiftSibling_sortOrder (a j : Job) (hg : j.graphId = a.graphId)
    (hp : j.parentId = a.parentId) :
    (shiftSibling a j).sortOrder = shiftVal a.sortOrder j.sortOrder := by
  unfold shiftVal
  by_cases h : a.sortOrder < j.sortOrder
  · rw [shiftSibling_gt a j hg hp h, if_pos h]
  · rw [shiftSibling_le a j hg hp (Nat.not_lt.mp h), if_neg h]

theorem scopeOrders_append (l₁ l₂ : List Job) (g : String) (p : Option String) :
    scopeOrders (l₁ ++ l₂) g p = scopeOrders l₁ g p ++ scopeOrders l₂ g p := by
  simp [scopeOrders, List.filter_append]

theorem scope_mem_of_filter {j : Job} {jobs : List Job} {g : String} {p : Option String}
    (h : j ∈ jobs.filter (fun j => j.graphId == g && j.parentId == p)) :
    j ∈ jobs ∧ j.graphId = g ∧ j.parentId = p := by
  have := List.mem_filter.mp h
  simp only [Bool.and_eq_true, beq_iff_eq] at this
  exact ⟨this.1, this.2.1, this.2.2⟩

theorem scopeOrders_map_shift (jobs : List Job) (a : Job) :
    scopeOrders (jobs.map (shiftSibling a)) a.graphId a.parentId
      = (scopeOrders jobs a.graphId a.parentId).map (shiftVal a.sortOrder) := by
  unfold scopeOrders
  rw [List.filter_map, List.map_map, List.map_map]
  rw [List.filter_congr (q := fun j => j.graphId == a.graphId && j.parentId == a.parentId)]
  · apply List.map_congr_left
    intro j hj
    obtain ⟨_, hg, hp⟩ := scope_mem_of_filter hj
    exact shiftSibling_sortOrder a j hg hp
  · intro j _
    simp [Function.comp, shiftSibling_graphId, shiftSibling_parentId]

theorem scopeOrders_map_shift_other (jobs : List Job) (a : Job) (g : String)
    (p : Option String) (h : ¬(g = a.graphId ∧ p = a.parentId)) :
    scopeOrders (jobs.map (shiftSibling a)) g p = scopeOrders jobs g p := by
  unfold scopeOrders
  rw [List.filter_map, List.map_map]
  rw [List.filter_congr (q := fun j => j.graphId == g && j.parentId == p)]
  · apply List.map_congr_left
    intro j hj
    obtain ⟨_, hg, hp⟩ := scope_mem_of_filter hj
    have heq : shiftSibling a j = j := by
      apply shiftSibling_out
      intro hc
      exact h ⟨hg ▸ hc.1, hp ▸ hc.2⟩
    simp only [Function.comp_apply, heq]
  · intro j _
    simp [Function.comp, shiftSibling_graphId, shiftSibling_parentId]

theorem scopeOrders_singleton (c : Job) (g : String) (p : Option String)
    (hg : c.graphId = g) (hp : c.parentId = p) : scopeOrders [c] g p = [c.sortOrder] := by
  simp [scopeOrders, List.filter, hg, hp]

theorem shiftOrders_nodup (a : Nat) (l : List Nat) (h : l.Nodup) :
    ((l.map (shiftVal a)) ++ [a + 1]).Nodup := by
  rw [List.nodup_append]
  refine ⟨h.map (shiftVal_injective a), List.nodup_singleton _, ?_⟩
  intro y hy hz
  simp only [List.mem_singleton] at hz
  obtain ⟨x, _, hx⟩ := List.mem_map.mp hy
  exact shiftVal_ne_succ a x (hx.trans hz)

-- ----------------------------------------------------------------------
-- Claim C1
-- ----------------------------------------------------------------------

/-- C1: when the anchor exists, `insertAfter` creates the new job with
`sortOrder = anchor.sortOrder + 1`; the updated table is the sibling shift
of the old one followed by the new row, where the shift adds one to every
sibling with a strictly greater `sortOrder`, leaves every sibling with a
lesser-or-equal `sortOrder` unchanged, and leaves every non-sibling
unchanged; and if the anchor scope's `sortOrder` values were duplicate-free
before, they are duplicate-free afterwards. -/
theorem C1_insertAfter_spec (jobs : List Job) (anchorId newId : String)
    (payload : NewJobPayload) (a : Job) (jobs' : List Job) (created : Job)
    (hfind : findById jobs anchorId = some a)
    (hins : insertAfter jobs anchorId payload newId = some (jobs', created))
    (hpg : payload.graphId = a.graphId) (hpp : payload.parentId = a.parentId) :
    created.sortOrder = a.sortOrder + 1 ∧
    jobs' = jobs.map (shiftSibling a) ++ [created] ∧
    (∀ j : Job, j.graphId = a.graphId → j.parentId = a.parentId →
      a.sortOrder < j.sortOrder →
      shiftSibling a j = { j with sortOrder := j.sortOrder + 1 }) ∧
    (∀ j : Job, j.graphId = a.graphId → j.parentId = a.parentId →
      j.sortOrder ≤ a.sortOrder → shiftSibling a j = j) ∧
    (∀ j : Job, ¬(j.graphId = a.graphId ∧ j.parentId = a.parentId) →
      shiftSibling a j = j) ∧
    ((scopeOrders jobs a.graphId a.parentId).Nodup →
      (scopeOrders jobs' a.graphId a.parentId).Nodup) := by
  unfold insertAfter at hins
  rw [hfind] at hins
  injection hins with hins
  injection hins with hjobs hcreated
  subst hcreated
  refine ⟨rfl, hjobs.symm, fun j hg hp hlt => shiftSibling_gt a j hg hp hlt,
    fun j hg hp hle => shiftSibling_le a j hg hp hle,
    fun j hout => shiftSibling_out a j hout, ?_⟩
  intro hnd
  rw [← hjobs, scopeOrders_append, scopeOrders_map_shift,
    scopeOrders_singleton _ _ _ hpg hpp]
  exact shiftOrders_nodup a.sortOrder _ hnd

/-- Witness for C1 on the three-sibling fixture: the created job lands at
`sortOrder 1` and the sibling scope stays duplicate-free. -/
theorem C1_insertAfter_spec_witness :
    c1Result.2.sortOrder = c1Anchor.sortOrder + 1 ∧
      (scopeOrders c1Result.1 "g" (some "core")).Nodup := by
  have h := C1_insertAfter_spec fixtureSiblings "a" "n" c1Payload c1Anchor
    c1Result.1 c1Result.2 (by decide) (by decide) (by decide) (by decide)
  exact ⟨h.1, h.2.2.2.2.2 (by decide)⟩

-- ----------------------------------------------------------------------
-- Claim C2
-- ----------------------------------------------------------------------

theorem contiguous_iff (l : List Nat) :
    List.Perm l (List.range l.length) ↔ (l.Nodup ∧ ∀ k, k ∈ l ↔ k < l.length) := by
  constructor
  · intro h
    refine ⟨h.nodup_iff.mpr (List.nodup_range _), fun k => ?_⟩
    rw [h.mem_iff, List.mem_range]
  · rintro ⟨hnd, hmem⟩
    have hsub : List.range l.length ⊆ l := fun k hk => (hmem k).mpr (List.mem_range.mp hk)
    have hsp : List.Subperm (List.range l.length) l :=
      List.subperm_of_subset (List.nodup_range _) hsub
    exact (hsp.perm_of_length_le (by simp)).symm

theorem scopeOrders_singleton_out (c : Job) (g : String) (p : Option String)
    (h : ¬(c.graphId = g ∧ c.parentId = p)) : scopeOrders [c] g p = [] := by
  have hb : (c.graphId == g && c.parentId == p) = false := by
    by_cases h1 : c.graphId = g
    · have h2 : ¬ c.parentId = p := fun hp => h ⟨h1, hp⟩
      simp [h1, h2]
    · simp [h1]
  simp [scopeOrders, List.filter, hb]

/-- C2 counterexample: the invariant is not maintained by `delete` — after
deleting the middle sibling of a contiguous scope `{0, 1, 2}` the remaining
`sortOrder` values are `{0, 2}`, which has a gap.  (`BaseRepo.delete` only
removes rows; no resequencing is performed.) -/
theorem C2_counterexample :
    ContiguousScope fixtureSiblings "g" (some "core") ∧
      ¬ ContiguousScope (deleteCascade ⟨fixtureSiblings, [], []⟩ "b").jobs
        "g" (some "core") := by
  constructor <;> decide

/-- C2 (amended): the `{0, …, n-1}` sortOrder invariant is preserved by
`insertAfter` in every `(graphId, parentId)` scope (and `reorder` with the
exact sibling set re-establishes it, see C3) — but it is not preserved by
`delete`, which removes rows without resequencing the survivors, so the
claim's "after any sequence of the public operations" fails. -/
theorem C2_insertAfter_preserves_contiguity (jobs : List Job)
    (anchorId newId : String) (payload : NewJobPayload) (a : Job)
    (jobs' : List Job) (created : Job)
    (hfind : findById jobs anchorId = some a)
    (hins : insertAfter jobs anchorId payload newId = some (jobs', created))
    (hpg : payload.graphId = a.graphId) (hpp : payload.parentId = a.parentId)
    (g : String) (p : Option String) (hcont : ContiguousScope jobs g p) :
    ContiguousScope jobs' g p := by
  unfold insertAfter at hins
  rw [hfind] at hins
  injection hins with hins
  injection hins with hjobs hcreated
  have hcg : created.graphId = a.graphId := by rw [← hcreated]; exact hpg
  have hcp : created.parentId = a.parentId := by rw [← hcreated]; exact hpp
  have hcso : created.sortOrder = a.sortOrder + 1 := by rw [← hcreated]
  rw [hcreated] at hjobs
  by_cases hsc : g = a.graphId ∧ p = a.parentId
  · obtain ⟨hg, hp⟩ := hsc
    subst hg; subst hp
    unfold ContiguousScope at hcont ⊢
    rw [← hjobs, scopeOrders_append, scopeOrders_map_shift,
      scopeOrders_singleton _ _ _ hcg hcp, hcso]
    obtain ⟨hnd, hmem⟩ := (contiguous_iff _).mp hcont
    have hamem : a.sortOrder ∈ scopeOrders jobs a.graphId a.parentId := by
      apply List.mem_map.mpr
      refine ⟨a, List.mem_filter.mpr ⟨?_, by simp⟩, rfl⟩
      unfold findById at hfind
      exact List.mem_of_find?_eq_some hfind
    have haso : a.sortOrder < (scopeOrders jobs a.graphId a.parentId).length :=
      (hmem _).mp hamem
    apply (contiguous_iff _).mpr
    refine ⟨shiftOrders_nodup _ _ hnd, fun k => ?_⟩
    rw [List.mem_append, List.mem_singleton, List.length_append, List.length_map,
      List.length_singleton]
    constructor
    · rintro (hk | hk)
      · obtain ⟨x, hx, rfl⟩ := List.mem_map.mp hk
        have hxlt := (hmem x).mp hx
        have := shiftVal_le a.sortOrder x
        omega
      · omega
    · intro hk
      by_cases h1 : k ≤ a.sortOrder
      · refine Or.inl (List.mem_map.mpr ⟨k, (hmem k).mpr (by omega), ?_⟩)
        unfold shiftVal
        rw [if_neg (by omega)]
      · by_cases h2 : k = a.sortOrder + 1
        · exact Or.inr h2
        · refine Or.inl (List.mem_map.mpr ⟨k - 1, (hmem _).mpr (by omega), ?_⟩)
          unfold shiftVal
          rw [if_pos (by omega)]
          omega
  · unfold ContiguousScope at hcont ⊢
    rw [← hjobs, scopeOrders_append, scopeOrders_map_shift_other jobs a g p hsc]
    have hout : scopeOrders [created] g p = [] := by
      apply scopeOrders_singleton_out
      intro hc
      exact hsc ⟨hc.1.symm.trans hcg, hc.2.symm.trans hcp⟩
    rw [hout, List.append_nil]
    exact hcont

/-- Witness for C2 (amended): the insert-after step on the three-sibling
fixture keeps the sibling scope contiguous. -/
theorem C2_insertAfter_preserves_contiguity_witness :
    ContiguousScope c1Result.1 "g" (some "core") :=
  C2_insertAfter_preserves_contiguity fixtureSiblings "a" "n" c1Payload c1Anchor
    c1Result.1 c1Result.2 (by decide) (by decide) (by decide) (by decide)
    "g" (some "core") (by decide)

-- ----------------------------------------------------------------------
-- Claim C7
-- ----------------------------------------------------------------------

/-- C7: the `job_insert_after` tool rejects an insertion (returning failure
and leaving the jobs table untouched, so no row is created and no
`sortOrder` changes) whenever the anchor is a `small` job whose parent
already has 12 children, or a `micro` job whose parent already has 6. -/
theorem C7_insert_limit_rejected (jobs : List Job) (afterJobId newId : String)
    (args : InsertToolArgs) (a : Job) (pid : String)
    (hfind : findById jobs afterJobId = some a) (hpar : a.parentId = some pid) :
    (a.level = JobLevel.small → 12 ≤ countChildren jobs pid →
      jobInsertAfterTool jobs afterJobId args newId = ⟨false, jobs⟩) ∧
    (a.level = JobLevel.micro → 6 ≤ countChildren jobs pid →
      jobInsertAfterTool jobs afterJobId args newId = ⟨false, jobs⟩) := by
  constructor
  · intro hlv hcnt
    unfold jobInsertAfterTool
    rw [hfind]
    simp [hpar, hlv, if_pos hcnt]
  · intro hlv hcnt
    unfold jobInsertAfterTool
    rw [hfind]
    simp [hpar, hlv, if_pos hcnt]

/-- Witness for C7: the 13th small job under a full core and the 7th micro
job under a full small job are both rejected with the table unchanged. -/
theorem C7_insert_limit_rejected_witness :
    jobInsertAfterTool fixtureFullSmall "s0" c7Args "n" = ⟨false, fixtureFullSmall⟩ ∧
      jobInsertAfterTool fixtureFullMicro "m0" c7Args "n" = ⟨false, fixtureFullMicro⟩ :=
  ⟨(C7_insert_limit_rejected fixtureFullSmall "s0" "n" c7Args c7AnchorS "core"
      (by decide) (by decide)).1 (by decide) (by decide),
   (C7_insert_limit_rejected fixtureFullMicro "m0" "n" c7Args c7AnchorM "s"
      (by decide) (by decide)).2 (by decide) (by decide)⟩

-- Stable insertion sort: permutation and sortedness

theorem insertSorted_perm (j : Job) (l : List Job) :
    List.Perm (insertSorted j l) (j :: l) := by
  induction l with
  | nil => exact List.Perm.refl _
  | cons x xs ih =>
    unfold insertSorted
    split
    · exact List.Perm.refl _
    · exact (ih.cons x).trans (List.Perm.swap j x xs)

theorem sortByOrder_perm (l : List Job) : List.Perm (sortByOrder l) l := by
  suffices h : ∀ (acc l : List Job),
      List.Perm (l.foldl (fun acc j => insertSorted j acc) acc) (acc ++ l) by
    simpa using h [] l
  intro acc l
  induction l generalizing acc with
  | nil => simp
  | cons x xs ih =>
    simp only [List.foldl_cons]
    have h1 : List.Perm (xs.foldl (fun acc j => insertSorted j acc) (insertSorted x acc))
        ((insertSorted x acc) ++ xs) := ih _
    have h2 : List.Perm ((insertSorted x acc) ++ xs) ((x :: acc) ++ xs) :=
      (insertSorted_perm x acc).append_right xs
    exact h1.trans (h2.trans List.perm_middle.symm)

theorem insertSorted_sorted (j : Job) (l : List Job)
    (h : l.Pairwise (fun x y => x.sortOrder ≤ y.sortOrder)) :
    (insertSorted j l).Pairwise (fun x y => x.sortOrder ≤ y.sortOrder) := by
  induction l with
  | nil => simp [insertSorted]
  | cons x xs ih =>
    unfold insertSorted
    split
    · case isTrue hlt =>
      refine List.Pairwise.cons ?_ h
      intro y hy
      rcases List.mem_cons.mp hy with rfl | hy
      · exact Nat.le_of_lt hlt
      · exact Nat.le_trans (Nat.le_of_lt hlt) ((List.pairwise_cons.mp h).1 y hy)
    · case isFalse hge =>
      refine List.Pairwise.cons ?_ (ih (List.pairwise_cons.mp h).2)
      intro y hy
      have hy' : y ∈ j :: xs := (insertSorted_perm j xs).mem_iff.mp hy
      rcases List.mem_cons.mp hy' with rfl | hy'
      · exact Nat.not_lt.mp hge
      · exact (List.pairwise_cons.mp h).1 y hy'

theorem sortByOrder_sorted (l : List Job) :
    (sortByOrder l).Pairwise (fun x y => x.sortOrder ≤ y.sortOrder) := by
  suffices h : ∀ (acc l : List Job),
      acc.Pairwise (fun x y => x.sortOrder ≤ y.sortOrder) →
      (l.foldl (fun acc j => insertSorted j acc) acc).Pairwise
        (fun x y => x.sortOrder ≤ y.sortOrder) by
    exact h [] l (List.Pairwise.nil)
  intro acc l
  induction l generalizing acc with
  | nil => intro h; exact h
  | cons x xs ih =>
    intro h
    simp only [List.foldl_cons]
    exact ih _ (insertSorted_sorted x acc h)

-- Phase groups partition the small jobs

theorem phase_filter_sum (l : List Job) :
    (l.filter (fun j => j.phase == Phase.before)).length
      + (l.filter (fun j => j.phase == Phase.during)).length
      + (l.filter (fun j => j.phase == Phase.after)).length
      + (l.filter (fun j => j.phase == Phase.unknown)).length = l.length := by
  induction l with
  | nil => rfl
  | cons j t ih =>
    cases hph : j.phase <;>
      simp only [List.filter_cons, hph, List.length_cons] <;>
      simp <;> omega

-- ----------------------------------------------------------------------
-- Claim C10
-- ----------------------------------------------------------------------

/-- C10: in the `ui_v1` timeline view a `small` job whose phase is
`unknown` appears in none of the three output groups, while it is still
counted by `stats.smallJobCount` and `stats.totalJobs`, so the group sizes
sum to strictly less than the reported small-job count. -/
theorem C10_unknown_phase_omitted (graphs : List GraphRec) (st : DBState)
    (graphId : String) (v : UIv1View) (j : Job)
    (hv : generateUIv1View graphs st graphId = some v)
    (hj : j ∈ st.jobs) (hg : j.graphId = graphId) (hlvl : j.level = JobLevel.small)
    (hph : j.phase = Phase.unknown)
    (hids : (st.jobs.map Job.id).Nodup) :
    (∀ e ∈ v.jobs.before, e.id ≠ j.id) ∧
    (∀ e ∈ v.jobs.during, e.id ≠ j.id) ∧
    (∀ e ∈ v.jobs.after, e.id ≠ j.id) ∧
    v.stats.smallJobCount
      = ((st.jobs.filter (fun k => k.graphId == graphId)).filter
          (fun k => k.level == JobLevel.small)).length ∧
    v.stats.totalJobs = (st.jobs.filter (fun k => k.graphId == graphId)).length ∧
    v.jobs.before.length + v.jobs.during.length + v.jobs.after.length
      < v.stats.smallJobCount := by
  unfold generateUIv1View at hv
  cases hfg : graphs.find? (fun g => g.id == graphId) with
  | none => rw [hfg] at hv; simp at hv
  | some gr =>
    rw [hfg] at hv
    dsimp only at hv
    injection hv with hv
    subst hv
    dsimp only
    have hpermAll : List.Perm (findByGraphIdList st.jobs graphId)
        (st.jobs.filter (fun k => k.graphId == graphId)) := sortByOrder_perm _
    have hjAll : j ∈ findByGraphIdList st.jobs graphId :=
      hpermAll.mem_iff.mpr (List.mem_filter.mpr ⟨hj, by simp [hg]⟩)
    have hjSmall : j ∈ (findByGraphIdList st.jobs graphId).filter
        (fun k => k.level == JobLevel.small) :=
      List.mem_filter.mpr ⟨hjAll, by simp [hlvl]⟩
    have hmemSt : ∀ k, k ∈ findByGraphIdList st.jobs graphId → k ∈ st.jobs := by
      intro k hk
      exact (List.mem_filter.mp (hpermAll.mem_iff.mp hk)).1
    have hgroup : ∀ (ph : Phase), ph ≠ Phase.unknown →
        ∀ e ∈ (sortByOrder
            (((findByGraphIdList st.jobs graphId).filter
                (fun k => k.level == JobLevel.small)).filter
              (fun k => k.phase == ph))).map
            (transformJob st ((findByGraphIdList st.jobs graphId).filter
              (fun k => k.level == JobLevel.micro))),
          e.id ≠ j.id := by
      intro ph hphne e he
      obtain ⟨k, hk, rfl⟩ := List.mem_map.mp he
      have hk' := (sortByOrder_perm _).mem_iff.mp hk
      obtain ⟨hkSmall, hkph⟩ := List.mem_filter.mp hk'
      have hkSt : k ∈ st.jobs := hmemSt k (List.mem_filter.mp hkSmall).1
      have hkphase : k.phase = ph := by simpa using hkph
      intro hide
      have : k = j := List.inj_on_of_nodup_map hids hkSt hj hide
      rw [this] at hkphase
      exact hphne (hkphase ▸ hph ▸ rfl)
    have hlen : ∀ (ph : Phase),
        ((sortByOrder
            (((findByGraphIdList st.jobs graphId).filter
                (fun k => k.level == JobLevel.small)).filter
              (fun k => k.phase == ph))).map
            (transformJob st ((findByGraphIdList st.jobs graphId).filter
              (fun k => k.level == JobLevel.micro)))).length
          = (((findByGraphIdList st.jobs graphId).filter
              (fun k => k.level == JobLevel.small)).filter
            (fun k => k.phase == ph)).length := by
      intro ph
      rw [List.length_map, (sortByOrder_perm _).length_eq]
    have hjUnknown : j ∈ ((findByGraphIdList st.jobs graphId).filter
        (fun k => k.level == JobLevel.small)).filter
          (fun k => k.phase == Phase.unknown) :=
      List.mem_filter.mpr ⟨hjSmall, by simp [hph]⟩
    have hpos : 0 < (((findByGraphIdList st.jobs graphId).filter
        (fun k => k.level == JobLevel.small)).filter
          (fun k => k.phase == Phase.unknown)).length :=
      List.length_pos.mpr (List.ne_nil_of_mem hjUnknown)
    have hsum := phase_filter_sum ((findByGraphIdList st.jobs graphId).filter
      (fun k => k.level == JobLevel.small))
    refine ⟨hgroup Phase.before (by intro h; cases h),
      hgroup Phase.during (by intro h; cases h),
      hgroup Phase.after (by intro h; cases h),
      ((hpermAll.filter _).length_eq), hpermAll.length_eq, ?_⟩
    rw [hlen Phase.before, hlen Phase.during, hlen Phase.after]
    omega

/-- Witness for C10: on `fixtureC10` (one `during` job, one unknown-phase
job) the three group sizes sum to less than the reported small-job count. -/
theorem C10_unknown_phase_omitted_witness :
    c10View.jobs.before.length + c10View.jobs.during.length
        + c10View.jobs.after.length < c10View.stats.smallJobCount :=
  (C10_unknown_phase_omitted fixtureGraphs fixtureC10 "g" c10View c10U
    (by decide) (by decide) (by decide) (by decide) (by decide) (by decide)).2.2.2.2.2

-- ----------------------------------------------------------------------
-- Claim C6
-- ----------------------------------------------------------------------

/-- C6 (code bug evidence): on a graph that §8 of the spec calls valid —
every formulation starts with "i want to", labels are non-empty
non-first-person, no conjunctions, no unknown phases, exactly 10 small jobs
parented to the core job with exactly 4 micro children each — `validate`
does return `valid = true` and `stats.smallJobCount = 10`, but it
nevertheless emits the sibling-count warning `TOO_FEW_SMALL_JOBS`: the
graph-wide small-job count check filters on `parentId === null`, and small
jobs are parented to the core job, so it always counts 0. -/
theorem C6_small_count_warning_divergence :
    (validateGraph fixtureC6 "g" "en").valid = true ∧
      (validateGraph fixtureC6 "g" "en").stats.smallJobCount = 10 ∧
      (validateGraph fixtureC6 "g" "en").warnings.map ValidationError.code
        = ["TOO_FEW_SMALL_JOBS"] := by
  refine ⟨by decide, by decide, by decide⟩

-- ----------------------------------------------------------------------
-- Claim C8
-- ----------------------------------------------------------------------

theorem closureStep_sound (jobs : List Job) (id : String) :
    ∀ (k : Nat) (s : String), s ∈ (closureStep jobs)^[k] [id] → Desc jobs id s := by
  intro k
  induction k with
  | zero =>
    intro s hs
    simp at hs
    exact hs ▸ Desc.refl
  | succ k ih =>
    intro s hs
    rw [Function.iterate_succ_apply'] at hs
    rcases List.mem_append.mp hs with h | h
    · exact ih s h
    · obtain ⟨j, hjf, rfl⟩ := List.mem_map.mp h
      obtain ⟨hj, hcond⟩ := List.mem_filter.mp hjf
      rw [Bool.and_eq_true] at hcond
      cases hp : j.parentId with
      | none => rw [hp] at hcond; simp at hcond
      | some p =>
        rw [hp] at hcond
        have hpmem : p ∈ (closureStep jobs)^[k] [id] := by simpa using hcond.1
        exact Desc.child j p hj hp (ih p hpmem)

theorem closed_of_step_eq {jobs : List Job} {acc : List String}
    (h : closureStep jobs acc = acc) : Closed jobs acc := by
  intro j hj p hp hpmem
  by_contra hid
  have hlen := congrArg List.length h
  unfold closureStep at hlen
  rw [List.length_append] at hlen
  have hnil : (jobs.filter (fun j =>
      (match j.parentId with
       | some p => acc.contains p
       | none => false) && ¬ acc.contains j.id)).map Job.id = [] := by
    apply List.eq_nil_of_length_eq_zero
    omega
  have hjf : j.id ∈ (jobs.filter (fun j =>
      (match j.parentId with
       | some p => acc.contains p
       | none => false) && ¬ acc.contains j.id)).map Job.id := by
    refine List.mem_map.mpr ⟨j, List.mem_filter.mpr ⟨hj, ?_⟩, rfl⟩
    rw [hp]
    simp [hpmem, hid]
  rw [hnil] at hjf
  cases hjf

theorem iter_subset (jobs : List Job) (id : String) :
    ∀ k, (closureStep jobs)^[k] [id] ⊆ id :: jobs.map Job.id := by
  intro k
  induction k with
  | zero => intro s hs; simp at hs; simp [hs]
  | succ k ih =>
    rw [Function.iterate_succ_apply']
    intro s hs
    rcases List.mem_append.mp hs with h | h
    · exact ih h
    · obtain ⟨j, hjf, rfl⟩ := List.mem_map.mp h
      exact List.mem_cons_of_mem _ (List.mem_map.mpr ⟨j, (List.mem_filter.mp hjf).1, rfl⟩)

theorem iter_nodup {jobs : List Job} {id : String} (hids : (jobs.map Job.id).Nodup) :
    ∀ k, ((closureStep jobs)^[k] [id]).Nodup := by
  intro k
  induction k with
  | zero => simp
  | succ k ih =>
    rw [Function.iterate_succ_apply']
    unfold closureStep
    rw [List.nodup_append]
    refine ⟨ih, ((List.filter_sublist _).map Job.id).nodup hids, ?_⟩
    intro y hy hy'
    obtain ⟨j, hjf, rfl⟩ := List.mem_map.mp hy'
    have hcond := (List.mem_filter.mp hjf).2
    rw [Bool.and_eq_true] at hcond
    have h2 := hcond.2
    simp only [decide_eq_true_eq] at h2
    exact h2 (by simpa using hy)

theorem nodup_subset_length_le {l l' : List String} (hnd : l.Nodup) (hsub : l ⊆ l') :
    l.length ≤ l'.length := by
  calc l.length = l.toFinset.card := (List.toFinset_card_of_nodup hnd).symm
    _ ≤ l'.toFinset.card := Finset.card_le_card
        (fun x hx => List.mem_toFinset.mpr (hsub (List.mem_toFinset.mp hx)))
    _ ≤ l'.length := List.toFinset_card_le _

theorem closureStep_length {jobs : List Job} {acc : List String}
    (h : closureStep jobs acc ≠ acc) : acc.length + 1 ≤ (closureStep jobs acc).length := by
  unfold closureStep at h ⊢
  rw [List.length_append]
  cases hL : (jobs.filter (fun j =>
      (match j.parentId with
       | some p => acc.contains p
       | none => false) && ¬ acc.contains j.id)).map Job.id with
  | nil => exact absurd (by rw [hL, List.append_nil]) h
  | cons x xs => simp

theorem iter_growth (jobs : List Job) (id : String) :
    ∀ m, (∀ k, k < m →
        closureStep jobs ((closureStep jobs)^[k] [id]) ≠ (closureStep jobs)^[k] [id]) →
      m + 1 ≤ ((closureStep jobs)^[m] [id]).length := by
  intro m
  induction m with
  | zero => intro _; simp
  | succ m ih =>
    intro h
    have h1 := ih (fun k hk => h k (Nat.lt_succ_of_lt hk))
    have h2 := closureStep_length (h m (Nat.lt_succ_self m))
    rw [Function.iterate_succ_apply']
    omega

theorem doomed_closed {jobs : List Job} {id : String}
    (hids : (jobs.map Job.id).Nodup) : Closed jobs (doomedList jobs id) := by
  by_contra hnc
  have hnofix : ∀ k, k < jobs.length →
      closureStep jobs ((closureStep jobs)^[k] [id]) ≠ (closureStep jobs)^[k] [id] := by
    intro k hk heq
    have hfix : (closureStep jobs)^[jobs.length] [id] = (closureStep jobs)^[k] [id] := by
      have hL : jobs.length = (jobs.length - k) + k := by omega
      rw [hL, Function.iterate_add_apply]
      exact Function.iterate_fixed heq (jobs.length - k)
    apply hnc
    show Closed jobs (doomedList jobs id)
    unfold doomedList
    rw [hfix]
    exact closed_of_step_eq heq
  have hge := iter_growth jobs id jobs.length hnofix
  have hle : ((closureStep jobs)^[jobs.length] [id]).length ≤ jobs.length + 1 := by
    have := nodup_subset_length_le (iter_nodup hids jobs.length) (iter_subset jobs id jobs.length)
    simpa using this
  have hstep_ne : closureStep jobs ((closureStep jobs)^[jobs.length] [id])
      ≠ (closureStep jobs)^[jobs.length] [id] := by
    intro heq
    exact hnc (closed_of_step_eq heq)
  have h2 := closureStep_length hstep_ne
  have hle2 : (closureStep jobs ((closureStep jobs)^[jobs.length] [id])).length
      ≤ jobs.length + 1 := by
    have hnd := @iter_nodup jobs id hids (jobs.length + 1)
    have hsub := iter_subset jobs id (jobs.length + 1)
    rw [Function.iterate_succ_apply'] at hnd hsub
    have := nodup_subset_length_le hnd hsub
    simpa using this
  omega

theorem doomed_iff {jobs : List Job} {id : String} (hids : (jobs.map Job.id).Nodup)
    (s : String) : s ∈ doomedList jobs id ↔ Desc jobs id s := by
  constructor
  · intro h
    exact closureStep_sound jobs id jobs.length s h
  · intro h
    induction h with
    | refl =>
      have hmono : ∀ k, id ∈ (closureStep jobs)^[k] [id] := by
        intro k
        induction k with
        | zero => simp
        | succ k ih =>
          rw [Function.iterate_succ_apply']
          exact List.mem_append_left _ ih
      exact hmono jobs.length
    | child j p hj hp _ ih => exact doomed_closed hids j hj p hp ih

theorem desc_graph {jobs : List Job} {id : String} {a : Job}
    (hids : (jobs.map Job.id).Nodup) (ha : a ∈ jobs) (haid : a.id = id) :
    (∀ j ∈ jobs, ∀ p, j.parentId = some p →
      ∃ q ∈ jobs, q.id = p ∧ q.graphId = j.graphId) →
    ∀ s, Desc jobs id s → s = id ∨ ∃ j, j ∈ jobs ∧ j.id = s ∧ j.graphId = a.graphId := by
  intro hwf s h
  induction h with
  | refl => exact Or.inl rfl
  | child j p hj hp _ ih =>
    refine Or.inr ⟨j, hj, rfl, ?_⟩
    obtain ⟨q, hq, hqid, hqg⟩ := hwf j hj p hp
    rcases ih with hpid | ⟨jp, hjp, hjpid, hjpg⟩
    · have hqa : q = a := List.inj_on_of_nodup_map hids hq ha (by rw [hqid, hpid, haid])
      calc j.graphId = q.graphId := hqg.symm
        _ = a.graphId := by rw [hqa]
    · have hqjp : q = jp := List.inj_on_of_nodup_map hids hq hjp (hqid.trans hjpid.symm)
      calc j.graphId = q.graphId := hqg.symm
        _ = jp.graphId := by rw [hqjp]
        _ = a.graphId := hjpg

/-- C8: deleting a job removes, atomically, exactly the job itself and its
transitive descendants, every solution belonging to a removed job, and every
edge whose `fromId` or `toId` references a removed job; rows of jobs in
other graphs (and their solutions and edges) are unaffected. -/
theorem C8_cascade_delete_spec (st : DBState) (id : String) (a : Job)
    (hids : (st.jobs.map Job.id).Nodup)
    (ha : a ∈ st.jobs) (haid : a.id = id)
    (hwf : ∀ j ∈ st.jobs, ∀ p, j.parentId = some p →
      ∃ q ∈ st.jobs, q.id = p ∧ q.graphId = j.graphId) :
    (∀ j ∈ st.jobs, (j ∈ (deleteCascade st id).jobs ↔ ¬ Desc st.jobs id j.id)) ∧
    (∀ s ∈ st.solutions,
      (s ∈ (deleteCascade st id).solutions ↔ ¬ Desc st.jobs id s.jobId)) ∧
    (∀ e ∈ st.edges, (e ∈ (deleteCascade st id).edges ↔
      ¬ (Desc st.jobs id e.fromId ∨ Desc st.jobs id e.toId))) ∧
    (∀ j ∈ st.jobs, j.graphId ≠ a.graphId → j ∈ (deleteCascade st id).jobs) ∧
    (∀ s ∈ st.solutions,
      (∀ j ∈ st.jobs, j.id = s.jobId → j.graphId ≠ a.graphId) →
      s ∈ (deleteCascade st id).solutions) ∧
    (∀ e ∈ st.edges,
      (∀ j ∈ st.jobs, (j.id = e.fromId ∨ j.id = e.toId) → j.graphId ≠ a.graphId) →
      e ∈ (deleteCascade st id).edges) := by
  have hjobs : ∀ j ∈ st.jobs, (j ∈ (deleteCascade st id).jobs ↔ ¬ Desc st.jobs id j.id) := by
    intro j hj
    show j ∈ st.jobs.filter _ ↔ _
    rw [List.mem_filter]
    simp [hj, doomed_iff hids]
  have hsols : ∀ s ∈ st.solutions,
      (s ∈ (deleteCascade st id).solutions ↔ ¬ Desc st.jobs id s.jobId) := by
    intro s hs
    show s ∈ st.solutions.filter _ ↔ _
    rw [List.mem_filter]
    simp [hs, doomed_iff hids]
  have hedges : ∀ e ∈ st.edges, (e ∈ (deleteCascade st id).edges ↔
      ¬ (Desc st.jobs id e.fromId ∨ Desc st.jobs id e.toId)) := by
    intro e he
    show e ∈ st.edges.filter _ ↔ _
    rw [List.mem_filter]
    simp [he, doomed_iff hids, not_or]
  refine ⟨hjobs, hsols, hedges, ?_, ?_, ?_⟩
  · intro j hj hne
    apply (hjobs j hj).mpr
    intro hdesc
    rcases desc_graph hids ha haid hwf j.id hdesc with hjid | ⟨j', hj', hj'id, hj'g⟩
    · exact hne (by rw [List.inj_on_of_nodup_map hids hj ha (by rw [hjid, haid])])
    · exact hne (by rw [← List.inj_on_of_nodup_map hids hj' hj hj'id]; exact hj'g)
  · intro s hs hother
    apply (hsols s hs).mpr
    intro hdesc
    rcases desc_graph hids ha haid hwf s.jobId hdesc with hsid | ⟨j', hj', hj'id, hj'g⟩
    · exact hother a ha (haid.trans hsid.symm) rfl
    · exact hother j' hj' hj'id hj'g
  · intro e he hother
    apply (hedges e he).mpr
    rintro (hdesc | hdesc)
    · rcases desc_graph hids ha haid hwf e.fromId hdesc with hsid | ⟨j', hj', hj'id, hj'g⟩
      · exact hother a ha (Or.inl (haid.trans hsid.symm)) rfl
      · exact hother j' hj' (Or.inl hj'id) hj'g
    · rcases desc_graph hids ha haid hwf e.toId hdesc with hsid | ⟨j', hj', hj'id, hj'g⟩
      · exact hother a ha (Or.inr (haid.trans hsid.symm)) rfl
      · exact hother j' hj' (Or.inr hj'id) hj'g

/-- Witness for C8 on `fixtureC8`: deleting the small job `s` (4 micro
children, 2 solutions) removes the 4 children, both solutions and the edge
referencing child `m0`, while the other small job, the other graph's rows
and the unrelated edge survive. -/
theorem C8_cascade_delete_spec_witness :
    (c8M1 ∈ (deleteCascade fixtureC8 "s").jobs ↔ ¬ Desc fixtureC8.jobs "s" c8M1.id) ∧
      (deleteCascade fixtureC8 "s").jobs.map Job.id = ["core", "s2", "hj"] ∧
      (deleteCascade fixtureC8 "s").solutions.map Solution.id = ["sol3", "sol4"] ∧
      (deleteCascade fixtureC8 "s").edges.map Edge.id = ["e2"] :=
  ⟨(C8_cascade_delete_spec fixtureC8 "s" c8S (by decide) (by decide) (by decide)
      (by decide)).1 c8M1 (by decide),
   by decide, by decide, by decide⟩

-- ----------------------------------------------------------------------
-- Claim C3
-- ----------------------------------------------------------------------

theorem expectedSiblings_eq (jobs : List Job) (graphId : String)
    (parentId : Option String) :
    expectedSiblings jobs graphId parentId
      = sortByOrder (scopeFilter jobs graphId parentId) := by
  cases parentId <;> rfl

theorem scopeFilter_sub (jobs : List Job) (graphId : String) (parentId : Option String) :
    scopeFilter jobs graphId parentId ⊆ jobs := by
  cases parentId <;> (intro j hj; exact (List.mem_filter.mp hj).1)

theorem findById_of_mem {jobs : List Job} (hids : (jobs.map Job.id).Nodup) {j : Job}
    (hj : j ∈ jobs) : findById jobs j.id = some j := by
  induction jobs with
  | nil => cases hj
  | cons x xs ih =>
    rw [List.map_cons] at hids
    have hnd := List.nodup_cons.mp hids
    rcases List.mem_cons.mp hj with rfl | hj'
    · unfold findById
      rw [@List.find?_cons_of_pos Job (fun q : Job => q.id == j.id) j xs (by simp)]
    · have hne : ¬ ((fun q : Job => q.id == j.id) x) = true := by
        simp only [beq_iff_eq]
        intro he
        exact hnd.1 (he ▸ List.mem_map.mpr ⟨j, hj', rfl⟩)
      unfold findById at ih ⊢
      rw [@List.find?_cons_of_neg Job (fun q : Job => q.id == j.id) x xs hne]
      exact ih hnd.2 hj'

theorem posOf_cons (x : String) (xs : List String) (s : String) :
    posOf (x :: xs) s = if (x == s) = true then 0 else posOf xs s + 1 := rfl

theorem posOf_lt {ids : List String} {s : String} (h : s ∈ ids) :
    posOf ids s < ids.length := by
  induction ids with
  | nil => cases h
  | cons x xs ih =>
    rw [posOf_cons]
    by_cases hx : (x == s) = true
    · rw [if_pos hx]; simp
    · rw [if_neg hx]
      have hs : s ∈ xs := by
        rcases List.mem_cons.mp h with heq | h'
        · exact absurd (by simp [heq]) hx
        · exact h'
      have := ih hs
      simp only [List.length_cons]
      omega

theorem getElem?_posOf {ids : List String} {s : String} (h : s ∈ ids) :
    ids[posOf ids s]? = some s := by
  induction ids with
  | nil => cases h
  | cons x xs ih =>
    rw [posOf_cons]
    by_cases hx : (x == s) = true
    · rw [if_pos hx]
      simp [beq_iff_eq.mp hx]
    · rw [if_neg hx]
      have hs : s ∈ xs := by
        rcases List.mem_cons.mp h with heq | h'
        · exact absurd (by simp [heq]) hx
        · exact h'
      simpa using ih hs

theorem map_posOf_range (ids : List String) (hnd : ids.Nodup) :
    ids.map (posOf ids) = List.range ids.length := by
  induction ids with
  | nil => rfl
  | cons x xs ih =>
    have hx : x ∉ xs := (List.nodup_cons.mp hnd).1
    have hnd' := (List.nodup_cons.mp hnd).2
    rw [List.map_cons, List.length_cons, List.range_succ_eq_map]
    have h0 : posOf (x :: xs) x = 0 := by rw [posOf_cons, if_pos (by simp)]
    have htail : xs.map (posOf (x :: xs)) = (xs.map (posOf xs)).map Nat.succ := by
      rw [List.map_map]
      apply List.map_congr_left
      intro s hs
      have hne : ¬ (x == s) = true := by
        simp only [beq_iff_eq]
        intro he
        exact hx (he ▸ hs)
      simp only [Function.comp_apply]
      rw [posOf_cons, if_neg hne, Nat.succ_eq_add_one]
    rw [h0, htail, ih hnd']

theorem job_so_congr (j : Job) {m n : Nat} (h : m = n) :
    ({ j with sortOrder := m } : Job) = { j with sortOrder := n } := by rw [h]

theorem reorderFrom_eq_map (ids : List String) (hnd : ids.Nodup) :
    ∀ (jobs : List Job) (k : Nat), reorderFrom jobs ids k = jobs.map (fun j =>
      if ids.contains j.id then { j with sortOrder := k + posOf ids j.id } else j) := by
  induction ids with
  | nil =>
    intro jobs k
    show jobs = _
    simp
  | cons x xs ih =>
    intro jobs k
    have hx : x ∉ xs := (List.nodup_cons.mp hnd).1
    have hnd' := (List.nodup_cons.mp hnd).2
    show reorderFrom (jobs.map fun j => if j.id == x then { j with sortOrder := k } else j)
        xs (k + 1) = _
    rw [ih hnd' _ (k + 1), List.map_map]
    apply List.map_congr_left
    intro j _
    simp only [Function.comp_apply]
    by_cases hjx : j.id = x
    · have hb : (j.id == x) = true := beq_iff_eq.mpr hjx
      rw [if_pos hb]
      have hxs : ¬ xs.contains x = true := by simpa using hx
      have hhead : ({ j with sortOrder := k } : Job).id = j.id := rfl
      rw [if_neg (by rw [hhead, hjx]; exact hxs)]
      have hcont : (x :: xs).contains j.id = true := by simp [hjx]
      rw [if_pos hcont]
      apply job_so_congr
      rw [posOf_cons, if_pos (by simp [hjx])]
      omega
    · have hb : ¬ (j.id == x) = true := by simpa using hjx
      rw [if_neg hb]
      by_cases hin : xs.contains j.id = true
      · rw [if_pos hin]
        have hcont : (x :: xs).contains j.id = true := by
          simp only [List.contains_cons]
          rw [hin]
          simp
        rw [if_pos hcont]
        apply job_so_congr
        rw [posOf_cons, if_neg (by simp only [beq_iff_eq]; exact fun he => hjx he.symm)]
        omega
      · rw [if_neg hin]
        have hcont : ¬ (x :: xs).contains j.id = true := by
          simp only [List.contains_cons, Bool.or_eq_true]
          rintro (h1 | h2)
          · exact hb h1
          · exact hin h2
        rw [if_neg hcont]

theorem reorder_eq_map (jobs : List Job) (ids : List String) (hnd : ids.Nodup) :
    reorder jobs ids = jobs.map (fun j =>
      if ids.contains j.id then { j with sortOrder := posOf ids j.id } else j) := by
  rw [reorder, reorderFrom_eq_map ids hnd jobs 0]
  apply List.map_congr_left
  intro j _
  by_cases h : ids.contains j.id = true
  · rw [if_pos h, if_pos h]
    apply job_so_congr
    omega
  · rw [if_neg h, if_neg h]

theorem scopeFilter_map (jobs : List Job) (graphId : String) (parentId : Option String)
    (f : Job → Job)
    (hf : ∀ j : Job, (f j).graphId = j.graphId ∧ (f j).parentId = j.parentId) :
    scopeFilter (jobs.map f) graphId parentId
      = (scopeFilter jobs graphId parentId).map f := by
  cases parentId with
  | some pid =>
    show (jobs.map f).filter _ = ((jobs.filter _).map f)
    rw [List.filter_map]
    congr 1
    apply List.filter_congr
    intro j _
    simp [Function.comp, (hf j).2]
  | none =>
    show (jobs.map f).filter _ = ((jobs.filter _).map f)
    rw [List.filter_map]
    congr 1
    apply List.filter_congr
    intro j _
    simp [Function.comp, (hf j).1, (hf j).2]

theorem reorder_readback (jobs : List Job) (graphId : String) (parentId : Option String)
    (jobIds : List String) (hids : (jobs.map Job.id).Nodup) (hnd : jobIds.Nodup)
    (hexact : List.Perm jobIds ((scopeFilter jobs graphId parentId).map Job.id)) :
    (expectedSiblings (reorder jobs jobIds) graphId parentId).map Job.id = jobIds := by
  have hreo := reorder_eq_map jobs jobIds hnd
  have hfieldsF : ∀ j : Job,
      ((fun j : Job => if jobIds.contains j.id then
          { j with sortOrder := posOf jobIds j.id } else j) j).graphId = j.graphId ∧
      ((fun j : Job => if jobIds.contains j.id then
          { j with sortOrder := posOf jobIds j.id } else j) j).parentId = j.parentId := by
    intro j
    dsimp only
    split <;> exact ⟨rfl, rfl⟩
  have hscope : scopeFilter (reorder jobs jobIds) graphId parentId
      = (scopeFilter jobs graphId parentId).map (fun j : Job =>
          if jobIds.contains j.id then { j with sortOrder := posOf jobIds j.id } else j) := by
    rw [hreo, scopeFilter_map jobs graphId parentId _ hfieldsF]
  have hmemS : ∀ j ∈ scopeFilter jobs graphId parentId, j.id ∈ jobIds := by
    intro j hj
    exact hexact.mem_iff.mpr (List.mem_map.mpr ⟨j, hj, rfl⟩)
  have hFso : ∀ j ∈ scopeFilter jobs graphId parentId,
      ((fun j : Job => if jobIds.contains j.id then
          { j with sortOrder := posOf jobIds j.id } else j) j).sortOrder
        = posOf jobIds j.id ∧
      ((fun j : Job => if jobIds.contains j.id then
          { j with sortOrder := posOf jobIds j.id } else j) j).id = j.id := by
    intro j hj
    dsimp only
    rw [if_pos (by simpa using hmemS j hj)]
    exact ⟨rfl, rfl⟩
  rw [expectedSiblings_eq, hscope]
  have hpermT := sortByOrder_perm ((scopeFilter jobs graphId parentId).map (fun j : Job =>
    if jobIds.contains j.id then { j with sortOrder := posOf jobIds j.id } else j))
  have hlenS : (scopeFilter jobs graphId parentId).length = jobIds.length := by
    have h1 := hexact.length_eq
    rw [List.length_map] at h1
    exact h1.symm
  have hlenT : (sortByOrder ((scopeFilter jobs graphId parentId).map (fun j : Job =>
      if jobIds.contains j.id then { j with sortOrder := posOf jobIds j.id } else j))).length
      = jobIds.length := by
    rw [hpermT.length_eq, List.length_map, hlenS]
  have heq1 : ((scopeFilter jobs graphId parentId).map (fun j : Job =>
      if jobIds.contains j.id then { j with sortOrder := posOf jobIds j.id } else j)).map
        Job.sortOrder
      = ((scopeFilter jobs graphId parentId).map Job.id).map (posOf jobIds) := by
    rw [List.map_map, List.map_map]
    apply List.map_congr_left
    intro j hj
    simp only [Function.comp_apply]
    exact (hFso j hj).1
  have hpermAll : List.Perm ((sortByOrder ((scopeFilter jobs graphId parentId).map
      (fun j : Job => if jobIds.contains j.id then
        { j with sortOrder := posOf jobIds j.id } else j))).map Job.sortOrder)
      (List.range jobIds.length) := by
    have hp1 := hpermT.map Job.sortOrder
    rw [heq1] at hp1
    have hp2 := (hexact.symm.map (posOf jobIds))
    rw [map_posOf_range jobIds hnd] at hp2
    exact hp1.trans hp2
  have hsorted_le : ((sortByOrder ((scopeFilter jobs graphId parentId).map
      (fun j : Job => if jobIds.contains j.id then
        { j with sortOrder := posOf jobIds j.id } else j))).map Job.sortOrder).Pairwise
      (· ≤ ·) :=
    List.pairwise_map.mpr (sortByOrder_sorted _)
  have hnodup : ((sortByOrder ((scopeFilter jobs graphId parentId).map
      (fun j : Job => if jobIds.contains j.id then
        { j with sortOrder := posOf jobIds j.id } else j))).map Job.sortOrder).Nodup :=
    hpermAll.nodup_iff.mpr (List.nodup_range _)
  have hsorted_lt : ((sortByOrder ((scopeFilter jobs graphId parentId).map
      (fun j : Job => if jobIds.contains j.id then
        { j with sortOrder := posOf jobIds j.id } else j))).map Job.sortOrder).Pairwise
      (· < ·) :=
    (hsorted_le.and hnodup).imp (fun h => Nat.lt_of_le_of_ne h.1 h.2)
  haveI : IsAntisymm Nat (· < ·) := ⟨fun a b h1 h2 => absurd h1 (Nat.lt_asymm h2)⟩
  have hmapso := List.eq_of_perm_of_sorted hpermAll hsorted_lt (List.pairwise_lt_range _)
  apply List.ext_getElem (by rw [List.length_map, hlenT])
  intro i h1 h2
  have hiT : i < (sortByOrder ((scopeFilter jobs graphId parentId).map
      (fun j : Job => if jobIds.contains j.id then
        { j with sortOrder := posOf jobIds j.id } else j))).length := by
    simpa using h1
  have hiM : i < ((sortByOrder ((scopeFilter jobs graphId parentId).map
      (fun j : Job => if jobIds.contains j.id then
        { j with sortOrder := posOf jobIds j.id } else j))).map Job.sortOrder).length := by
    rw [List.length_map]; exact hiT
  have hso : ((sortByOrder ((scopeFilter jobs graphId parentId).map
      (fun j : Job => if jobIds.contains j.id then
        { j with sortOrder := posOf jobIds j.id } else j)))[i]).sortOrder = i := by
    have h3 : ((sortByOrder ((scopeFilter jobs graphId parentId).map
        (fun j : Job => if jobIds.contains j.id then
          { j with sortOrder := posOf jobIds j.id } else j))).map Job.sortOrder)[i] = i := by
      have h4 := List.getElem_of_eq hmapso (by
        rw [hmapso, List.length_range]
        exact h2)
      rw [h4, List.getElem_range]
    rw [List.getElem_map] at h3
    exact h3
  have hmemT := List.getElem_mem hiT
  have hmemMap := hpermT.mem_iff.mp hmemT
  obtain ⟨j₀, hj₀, hFj⟩ := List.mem_map.mp hmemMap
  have hidid := (congrArg Job.id hFj).symm.trans ((hFso j₀ hj₀).2)
  have hposo : posOf jobIds j₀.id = i :=
    (((hFso j₀ hj₀).1).symm.trans (congrArg Job.sortOrder hFj)).trans hso
  have hjg : jobIds[i]? = some j₀.id := by
    rw [← hposo]
    exact getElem?_posOf (hmemS j₀ hj₀)
  rw [List.getElem_map, hidid]
  rw [List.getElem?_eq_getElem h2] at hjg
  injection hjg with hjg
  exact hjg.symm

theorem scope_parent_eq (jobs : List Job) (graphId : String) (parentId : Option String) :
    ∀ j ∈ scopeFilter jobs graphId parentId, j.parentId = parentId := by
  intro j hj
  cases parentId with
  | some pid =>
    have h := List.mem_filter.mp hj
    simpa using h.2
  | none => exact (scope_mem_of_filter hj).2.2

-- ----------------------------------------------------------------------
-- Claim C3
-- ----------------------------------------------------------------------

/-- C3: with an existing graph, globally unique job ids, and a valid parent
argument (when a parent id is given it resolves to a job of that graph),
the `job_reorder` tool: (1) given exactly the current sibling id set of the
`(graphId, parentId)` scope in any order, succeeds with `JobRepo.reorder`,
and re-reading those siblings sorted by `sortOrder` returns exactly the
given ids in the given order; (2) rejects a duplicated id list; (3) rejects
a list omitting an existing sibling; (4) rejects a list containing an id
that is unknown or belongs to another parent or graph — and every
rejection returns failure with the jobs table (hence every `sortOrder`)
unchanged. -/
theorem C3_reorder_tool_spec (graphs : List GraphRec) (jobs : List Job)
    (graphId : String) (parentId : Option String) (jobIds : List String)
    (gr : GraphRec) (hg : graphs.find? (fun g => g.id == graphId) = some gr)
    (hids : (jobs.map Job.id).Nodup)
    (hpok : ∀ pid, parentId = some pid →
      ∃ pj, findById jobs pid = some pj ∧ pj.graphId = graphId)
    (hsg : ∀ j ∈ scopeFilter jobs graphId parentId, j.graphId = graphId) :
    (List.Perm jobIds ((scopeFilter jobs graphId parentId).map Job.id) →
      jobIds.Nodup →
      jobReorderTool graphs jobs graphId parentId jobIds
          = ⟨true, reorder jobs jobIds⟩ ∧
        (expectedSiblings (reorder jobs jobIds) graphId parentId).map Job.id = jobIds) ∧
    (¬ jobIds.Nodup →
      jobReorderTool graphs jobs graphId parentId jobIds = ⟨false, jobs⟩) ∧
    (∀ s ∈ scopeFilter jobs graphId parentId, jobIds.Nodup → s.id ∉ jobIds →
      jobReorderTool graphs jobs graphId parentId jobIds = ⟨false, jobs⟩) ∧
    (∀ x ∈ jobIds, jobIds.Nodup →
      (∀ j, findById jobs x = some j → j.graphId ≠ graphId ∨ j.parentId ≠ parentId) →
      jobReorderTool graphs jobs graphId parentId jobIds = ⟨false, jobs⟩) := by
  refine ⟨?_, ?_, ?_, ?_⟩
  · intro hperm hnd
    have heq : jobReorderTool graphs jobs graphId parentId jobIds
        = ⟨true, reorder jobs jobIds⟩ := by
      unfold jobReorderTool
      rw [hg]
      dsimp only
      split
      · case isTrue hdup => exact absurd hnd hdup
      · split
        · case isTrue hpfail =>
          exfalso
          cases parentId with
          | none => simp at hpfail
          | some pid =>
            obtain ⟨pj, hf, hgq⟩ := hpok pid rfl
            dsimp only at hpfail
            rw [hf] at hpfail
            dsimp only at hpfail
            simp [hgq] at hpfail
        · split
          · case isTrue hne =>
            exfalso
            apply hne
            rw [List.filter_eq_nil_iff]
            intro a ha
            rw [expectedSiblings_eq] at ha
            obtain ⟨j, hj, rfl⟩ := List.mem_map.mp ha
            have hj' : j ∈ scopeFilter jobs graphId parentId :=
              (sortByOrder_perm _).mem_iff.mp hj
            have hc : j.id ∈ jobIds :=
              hperm.mem_iff.mpr (List.mem_map.mpr ⟨j, hj', rfl⟩)
            simp [hc]
          · split
            · case isTrue hne2 =>
              exfalso
              apply hne2
              rw [List.filter_eq_nil_iff]
              intro a ha
              have hmem : a ∈ (scopeFilter jobs graphId parentId).map Job.id :=
                hperm.mem_iff.mp ha
              obtain ⟨j, hj, rfl⟩ := List.mem_map.mp hmem
              have hfj : findById jobs j.id = some j :=
                findById_of_mem hids (scopeFilter_sub jobs graphId parentId hj)
              rw [hfj]
              simp [hsg j hj, scope_parent_eq jobs graphId parentId j hj]
            · rfl
    exact ⟨heq, reorder_readback jobs graphId parentId jobIds hids hnd hperm⟩
  · intro hndup
    unfold jobReorderTool
    rw [hg]
    dsimp only
    rw [if_pos hndup]
  · intro s hs hnd hnotin
    unfold jobReorderTool
    rw [hg]
    dsimp only
    split
    · rfl
    · split
      · rfl
      · split
        · rfl
        · case isFalse hmz =>
          exfalso
          apply hmz
          apply List.ne_nil_of_mem
          apply List.mem_filter.mpr
          refine ⟨?_, ?_⟩
          · rw [expectedSiblings_eq]
            exact List.mem_map.mpr ⟨s, (sortByOrder_perm _).mem_iff.mpr hs, rfl⟩
          · simp [hnotin]
  · intro x hx hnd hforeign
    unfold jobReorderTool
    rw [hg]
    dsimp only
    split
    · rfl
    · split
      · rfl
      · split
        · rfl
        · split
          · rfl
          · case isFalse hmz =>
            exfalso
            apply hmz
            apply List.ne_nil_of_mem
            apply List.mem_filter.mpr
            refine ⟨hx, ?_⟩
            cases hfx : findById jobs x with
            | none => rfl
            | some j => exact decide_eq_true (hforeign j hfx)

/-- Witness for C3: reordering the three siblings of `core` in graph `g`
from `[a, b, c]` to `[b, c, a]` succeeds, and reading the siblings back
sorted by `sortOrder` yields exactly `[b, c, a]`. -/
theorem C3_reorder_tool_spec_witness :
    jobReorderTool fixtureGraphs fixtureSiblings "g" (some "core") ["b", "c", "a"]
        = ⟨true, reorder fixtureSiblings ["b", "c", "a"]⟩ ∧
      (expectedSiblings (reorder fixtureSiblings ["b", "c", "a"]) "g"
          (some "core")).map Job.id = ["b", "c", "a"] :=
  (C3_reorder_tool_spec fixtureGraphs fixtureSiblings "g" (some "core") ["b", "c", "a"]
      c3Graph (by decide) (by decide)
      (fun pid hp => by
        injection hp with hp
        subst hp
        exact ⟨c3Core, by decide, by decide⟩)
      (by decide)).1 (by decide) (by decide)

end AJTBD
